import Mathlib

/-!
# Spatial hidden Markov model (`shmm.cpp`): embedding and verification

The C++ source is a template over the scalar `Type`; the embedding is
polymorphic over a field `K` in the same way and takes the scalar functions
`exp` and `log` as the parameters `ex` and `lg`.  The theorems instantiate
`K := ℝ`, `ex := Real.exp`, `lg := Real.log` (exact arithmetic).

A `1 × n` row `matrix<Type>` is a function `Fin n → K`; an `n × n` sparse
matrix is a `Matrix (Fin n) (Fin n) K`; an `nt × n` matrix is a function
`Fin nt → Fin n → K` (one row per time step); `psi` is a function on
`Fin (nt - 1)`.  Integers of the source (`m`, `dosmoo`) are `Int`.

The constant data that lines 105-121 copy into namespace `shmm` are the
argument `c : Consts K n`.  The arrays `pred`, `phi`, `psi`, `smoo` are
allocated without initialisation in the source; their initial content is the
argument `g : Grids K nt n`, over which every statement quantifies.
-/

open scoped BigOperators

namespace shmm

variable {K : Type} [Field K] {n nt : Nat}

/-- Constant inputs of namespace `shmm` (lines 11-16): `m`, `I`, `Sns`, `Sew`,
`dt`, `lgam`. -/
structure Consts (K : Type) (n : Nat) where
  /-- number of iterations of uniformization (`int m`) -/
  m : Int
  /-- the matrix supplied as identity -/
  I : Matrix (Fin n) (Fin n) K
  /-- north-south generator skeleton -/
  Sns : Matrix (Fin n) (Fin n) K
  /-- east-west generator skeleton -/
  Sew : Matrix (Fin n) (Fin n) K
  /-- time step -/
  dt : K
  /-- the vector `lgam`; `lgam(i)` is read for `0 ≤ i < m` -/
  lgam : List K

/-- Struct `shmm_parms` (lines 19-23): the non-constant inputs. -/
structure shmm_parms (K : Type) (n : Nat) where
  svec : Fin n → K
  Dx : K
  Dy : K

/-- Method `vector -> shmm_parms` (lines 25-31): `n = x.size() - 2`,
`svec = x.head(n)`, `Dx = x(n)`, `Dy = x(n+1)`. -/
def shmm_parms.ofVector (x : Fin (n + 2) → K) : shmm_parms K n where
  svec := fun j => x ⟨j.val, by omega⟩
  Dx := x ⟨n, by omega⟩
  Dy := x ⟨n + 1, by omega⟩

/-- Method `shmm_parms -> vector` (lines 33-40): `x.head(n) = svec`,
`x(n) = Dx`, `x(n+1) = Dy`. -/
def shmm_parms.toVector (p : shmm_parms K n) : Fin (n + 2) → K :=
  fun i => if h : i.val < n then p.svec ⟨i.val, h⟩
    else if i.val = n then p.Dx else p.Dy

/-- Line 55: `F = 2 * (Dx + Dy)`. -/
def F (Dx Dy : K) : K := 2 * (Dx + Dy)

/-- Line 56: `G = Dx*Sew + Dy*Sns`. -/
def G (c : Consts K n) (Dx Dy : K) : Matrix (Fin n) (Fin n) K :=
  Matrix.of fun i j => Dx * c.Sew i j + Dy * c.Sns i j

/-- Line 57: `P = G/F + I`. -/
def P (c : Consts K n) (Dx Dy : K) : Matrix (Fin n) (Fin n) K :=
  Matrix.of fun i j => G c Dx Dy i j / F Dx Dy + c.I i j

/-- Line 58: `FPdt = F*P*dt`. -/
def FPdt (c : Consts K n) (Dx Dy : K) : Matrix (Fin n) (Fin n) K :=
  Matrix.of fun i j => F Dx Dy * P c Dx Dy i j * c.dt

/-- Body of the loop of lines 62-65 at index `i`, on the pair
`(svec, predtmp)`: `svec = svec * FPdt; predtmp = predtmp + svec/exp(lgam(i))`.
The read `lgam(i)` is `lgam.getD i 0`; the loop reads the indices `i < m` only, which
are within the vector when `lgam` has length `m`. -/
def seriesStep (ex : K → K) (lgam : List K) (M : Matrix (Fin n) (Fin n) K) (i : Nat)
    (s : (Fin n → K) × (Fin n → K)) : (Fin n → K) × (Fin n → K) :=
  let svec := Matrix.vecMul s.1 M
  (svec, fun j => s.2 j + svec j / ex (lgam.getD i 0))

/-- The pair `(svec, predtmp)` after the iterations `i = 0 .. k-1` of the loop
of lines 61-65, started from `predtmp = svec`. -/
def seriesLoop (ex : K → K) (lgam : List K) (M : Matrix (Fin n) (Fin n) K)
    (svec : Fin n → K) : Nat → (Fin n → K) × (Fin n → K)
  | 0 => (svec, svec)
  | k + 1 => seriesStep ex lgam M k (seriesLoop ex lgam M svec k)

/-- Lines 55-66 of `forwardProject`: the accumulator `predtmp` after the scaling
by `exp(-F*dt)` and before the renormalisation of line 67. -/
def forwardAcc (ex : K → K) (c : Consts K n) (svec : Fin n → K) (Dx Dy : K) : Fin n → K :=
  let predtmp := (seriesLoop ex c.lgam (FPdt c Dx Dy) svec c.m.toNat).2
  fun j => predtmp j * ex (-F Dx Dy * c.dt)

/-- Function `forwardProject(svec, Dx, Dy)` (lines 45-69). -/
def forwardProject (ex : K → K) (c : Consts K n) (svec : Fin n → K) (Dx Dy : K) : Fin n → K :=
  let predtmp := forwardAcc ex c svec Dx Dy
  fun j => predtmp j / ∑ k, predtmp k

/-- Wrapper `forwardProject(vector input)` (lines 73-80), the registered atomic
function. -/
def forwardProject_vector (ex : K → K) (c : Consts K n) (input : Fin (n + 2) → K) : Fin n → K :=
  let parms : shmm_parms K n := shmm_parms.ofVector input
  forwardProject ex c parms.svec parms.Dx parms.Dy

/-- User version `ForwardProject(svec, Dx, Dy)` (lines 84-92). -/
def ForwardProject (ex : K → K) (c : Consts K n) (svec : Fin n → K) (Dx Dy : K) : Fin n → K :=
  let parms : shmm_parms K n := { svec := svec, Dx := Dx, Dy := Dy }
  let x := parms.toVector
  let y := forwardProject_vector ex c x
  y

/-- The arrays `pred`, `phi`, `psi`, `smoo` of `objective_function::operator()`
(lines 131-133 and 155). -/
structure Grids (K : Type) (nt n : Nat) where
  pred : Fin nt → Fin n → K
  phi : Fin nt → Fin n → K
  psi : Fin (nt - 1) → K
  smoo : Fin nt → Fin n → K

/-- Lines 134-135: `pred.row(0) = datlik.row(0) / datlik.row(0).sum()`,
`phi.row(0) = pred.row(0)`. -/
def filterInit (datlik : Fin nt → Fin n → K) (hnt : 0 < nt) (g : Grids K nt n) : Grids K nt n :=
  let pred := Function.update g.pred ⟨0, hnt⟩
    (fun j => datlik ⟨0, hnt⟩ j / ∑ k, datlik ⟨0, hnt⟩ k)
  let phi := Function.update g.phi ⟨0, hnt⟩ (pred ⟨0, hnt⟩)
  { g with pred := pred, phi := phi }

/-- Body of the filter loop (lines 139-147) at time index `t`. -/
def filterStep (ex : K → K) (c : Consts K n) (datlik : Fin nt → Fin n → K) (Dx Dy : K)
    (t : Nat) (h1 : 1 ≤ t) (ht : t < nt) (g : Grids K nt n) : Grids K nt n :=
  let svec := g.phi ⟨t - 1, by omega⟩
  let predtmp := ForwardProject ex c svec Dx Dy
  let pred := Function.update g.pred ⟨t, ht⟩ predtmp
  let post : Fin n → K := fun j => pred ⟨t, ht⟩ j * datlik ⟨t, ht⟩ j
  let psi := Function.update g.psi ⟨t - 1, by omega⟩ (∑ j, post j)
  let phi := Function.update g.phi ⟨t, ht⟩
    (fun j => post j / (psi ⟨t - 1, by omega⟩ + 1e-20))
  { g with pred := pred, phi := phi, psi := psi }

/-- The arrays after the initialisation and the iterations `t = 1 .. k` of the
filter loop (lines 134-148). -/
def filterLoop (ex : K → K) (c : Consts K n) (datlik : Fin nt → Fin n → K) (Dx Dy : K)
    (g : Grids K nt n) : (k : Nat) → k < nt → Grids K nt n
  | 0, h => filterInit datlik h g
  | k + 1, h =>
    filterStep ex c datlik Dx Dy (k + 1) (by omega) h
      (filterLoop ex c datlik Dx Dy g k (by omega))

/-- The forward filter, lines 131-148: all iterations `t = 1 .. nt-1`.
The argument `g` is the content of the freshly allocated arrays. -/
def forwardFilter (ex : K → K) (c : Consts K n) (datlik : Fin nt → Fin n → K) (Dx Dy : K)
    (hnt : 0 < nt) (g : Grids K nt n) : Grids K nt n :=
  filterLoop ex c datlik Dx Dy g (nt - 1) (by omega)

/-- Line 151: `ans = -sum(log(psi))`. -/
def negLogLik (lg : K → K) (psi : Fin (nt - 1) → K) : K := -∑ i, lg (psi i)

/-- Body of the smoothing loop (lines 160-166) at loop index `t`,
with `tt = nt - t`. -/
def smoothStep (ex : K → K) (c : Consts K n) (Dx Dy : K)
    (t : Nat) (h1 : 1 ≤ t) (ht : t < nt) (g : Grids K nt n) : Grids K nt n :=
  let tt := nt - t
  let ratio : Fin n → K := fun j => g.smoo ⟨tt, by omega⟩ j / g.pred ⟨tt, by omega⟩ j
  let ratiotmp := ForwardProject ex c ratio Dx Dy
  let post : Fin n → K := fun j => g.phi ⟨tt - 1, by omega⟩ j * ratiotmp j
  let post2 : Fin n → K := fun j => post j / ((∑ k, post k) + 1e-20)
  { g with smoo := Function.update g.smoo ⟨tt - 1, by omega⟩ post2 }

/-- The arrays after line 158 and the iterations `t = 1 .. k` of the smoothing
loop (lines 158-167). -/
def smoothLoop (ex : K → K) (c : Consts K n) (Dx Dy : K) (hnt : 0 < nt)
    (g : Grids K nt n) : (k : Nat) → k < nt → Grids K nt n
  | 0, _ =>
    { g with smoo := Function.update g.smoo ⟨nt - 1, by omega⟩ (g.phi ⟨nt - 1, by omega⟩) }
  | k + 1, h =>
    smoothStep ex c Dx Dy (k + 1) (by omega) h (smoothLoop ex c Dx Dy hnt g k (by omega))

/-- Lines 155-168: the smoothing block, run only when `dosmoo == 1`. -/
def smoothing (ex : K → K) (c : Consts K n) (Dx Dy : K) (dosmoo : Int) (hnt : 0 < nt)
    (g : Grids K nt n) : Grids K nt n :=
  if dosmoo = 1 then smoothLoop ex c Dx Dy hnt g (nt - 1) (by omega) else g

/-- Lines 123-176 of `objective_function::operator()` for `nt ≥ 1`: returns
`ans` and the reported arrays.  The argument `g` is the content of the freshly
allocated arrays `pred`, `phi`, `psi`, `smoo`. -/
def evaluate (ex lg : K → K) (c : Consts K n) (datlik : Fin nt → Fin n → K) (dosmoo : Int)
    (logDx logDy : K) (hnt : 0 < nt) (g : Grids K nt n) : K × Grids K nt n :=
  let Dx := ex logDx
  let Dy := ex logDy
  let g1 := forwardFilter ex c datlik Dx Dy hnt g
  let ans := negLogLik lg g1.psi
  let g2 := smoothing ex c Dx Dy dosmoo hnt g1
  (ans, g2)

/-- Function `objective_function::operator()`: `datlik.row(0)` does not exist
when `nt = 0`, where the evaluation fails. -/
def objective_function (ex lg : K → K) (c : Consts K n) (datlik : Fin nt → Fin n → K)
    (dosmoo : Int) (logDx logDy : K) (g : Grids K nt n) : Option (K × Grids K nt n) :=
  if hnt : 0 < nt then some (evaluate ex lg c datlik dosmoo logDx logDy hnt g) else none

/-! ## Concrete inputs -/

/-- East-west skeleton of the 4-cell linear chain: the 0/1 adjacency matrix with
ones exactly at (0,1), (1,0), (1,2), (2,1), (2,3), (3,2). -/
def chainSew (K : Type) [Field K] : Matrix (Fin 4) (Fin 4) K :=
  !![0, 1, 0, 0; 1, 0, 1, 0; 0, 1, 0, 1; 0, 0, 1, 0]

/-- The grid context of the end-to-end scenario: 4-cell chain, `Sns = 0`,
`dt = 1`, `m = 20`, `lgam[k] = log(k!)` for `k = 0 .. 19`. -/
def chain4 (lg : K → K) : Consts K 4 where
  m := 20
  I := 1
  Sns := 0
  Sew := chainSew K
  dt := 1
  lgam := (List.range 20).map fun k => lg (Nat.factorial k : K)

/-- The uniform distribution on four cells. -/
def uniform4 : Fin 4 → K := fun _ => 1 / 4

/-- A grid context whose two skeletons coincide (two cells joined both ways). -/
def twoCell : Consts K 2 where
  m := 2
  I := 1
  Sns := !![0, 1; 1, 0]
  Sew := !![0, 1; 1, 0]
  dt := 1
  lgam := [0, 0]

/-- A single cell without neighbours, two series terms, `lgam[k] = log(k!)`
for `k = 0, 1`. -/
def oneCell (lg : K → K) : Consts K 1 where
  m := 2
  I := 1
  Sns := 0
  Sew := 0
  dt := 1
  lgam := (List.range 2).map fun k => lg (Nat.factorial k : K)

/-- A single cell without neighbours, two series terms, `lgam[k] = log((k+1)!)`
for `k = 0, 1`. -/
def oneCellNext (lg : K → K) : Consts K 1 :=
  { oneCell lg with lgam := (List.range 2).map fun k => lg (Nat.factorial (k + 1) : K) }

/-- All-ones observation likelihoods (uninformative observations). -/
def onesLik (nt n : Nat) : Fin nt → Fin n → K := fun _ _ => 1

/-- Arrays filled with zeros, standing for freshly allocated storage. -/
def zeroGrids (nt n : Nat) : Grids K nt n where
  pred := fun _ _ => 0
  phi := fun _ _ => 0
  psi := fun _ => 0
  smoo := fun _ _ => 0

/-- A vector on the 4-cell chain that is symmetric about the middle of the chain and
positive, with at most as much mass on an end cell as on an interior cell. -/
def EndsLe (v : Fin 4 → ℝ) : Prop := v 0 = v 3 ∧ v 1 = v 2 ∧ 0 < v 0 ∧ v 0 ≤ v 1

/-- As `EndsLe`, with strictly less mass on an end cell than on an interior cell. -/
def EndsLt (v : Fin 4 → ℝ) : Prop := v 0 = v 3 ∧ v 1 = v 2 ∧ 0 < v 0 ∧ v 0 < v 1

/-- A single cell without neighbours whose context violates both preconditions on the
truncation order and the time step: `m = 0` and `dt = -1`. -/
def oneCellInvalid : Consts K 1 where
  m := 0
  I := 1
  Sns := 0
  Sew := 0
  dt := -1
  lgam := []

/-- Observation likelihoods on a single cell over three time steps whose middle row is
zero: rows `[1]`, `[0]`, `[1]`. -/
def zeroRowLik : Fin 3 → Fin 1 → K := fun t _ => if t.val = 1 then 0 else 1

/-- Observation likelihoods on a single cell over two time steps with a tiny positive
second row: rows `[1]`, `[1e-21]`. -/
def tinyLik : Fin 2 → Fin 1 → K := fun t _ => if t.val = 0 then 1 else 1e-21

/-! ## The projector: plumbing, sign and mass lemmas -/

omit [Field K] in
theorem shmm_parms.ofVector_toVector (p : shmm_parms K n) :
    shmm_parms.ofVector p.toVector = p := by
  cases p with
  | mk svec Dx Dy =>
    simp only [shmm_parms.ofVector, shmm_parms.toVector]
    congr 1
    · funext j
      simp [j.isLt]
    · simp
    · simp

theorem ForwardProject_eq (ex : K → K) (c : Consts K n) (svec : Fin n → K) (Dx Dy : K) :
    ForwardProject ex c svec Dx Dy = forwardProject ex c svec Dx Dy := by
  simp only [ForwardProject, forwardProject_vector, shmm_parms.ofVector_toVector]

theorem seriesLoop_succ (ex : K → K) (lgam : List K) (M : Matrix (Fin n) (Fin n) K)
    (svec : Fin n → K) (k : Nat) :
    seriesLoop ex lgam M svec (k + 1) =
      (Matrix.vecMul (seriesLoop ex lgam M svec k).1 M,
        fun j => (seriesLoop ex lgam M svec k).2 j +
          Matrix.vecMul (seriesLoop ex lgam M svec k).1 M j / ex (lgam.getD k 0)) := rfl

theorem forwardProject_sum_of_ne (ex : K → K) (c : Consts K n) (svec : Fin n → K) (Dx Dy : K)
    (h : ∑ j, forwardAcc ex c svec Dx Dy j ≠ 0) :
    ∑ j, forwardProject ex c svec Dx Dy j = 1 := by
  simp only [forwardProject]
  rw [← Finset.sum_div]
  exact div_self h

theorem F_pos {Dx Dy : ℝ} (hx : 0 ≤ Dx) (hy : 0 ≤ Dy) : 0 ≤ F Dx Dy := by
  unfold F
  positivity

theorem FPdt_nonneg (c : Consts ℝ n) {Dx Dy : ℝ}
    (hns : ∀ i j, 0 ≤ c.Sns i j) (hew : ∀ i j, 0 ≤ c.Sew i j) (hI : c.I = 1)
    (hdt : 0 ≤ c.dt) (hx : 0 ≤ Dx) (hy : 0 ≤ Dy) (i j : Fin n) :
    0 ≤ FPdt c Dx Dy i j := by
  have hF : 0 ≤ F Dx Dy := F_pos hx hy
  have hG : 0 ≤ G c Dx Dy i j := by
    simp only [G, Matrix.of_apply]
    exact add_nonneg (mul_nonneg hx (hew i j)) (mul_nonneg hy (hns i j))
  have hone : 0 ≤ c.I i j := by
    rw [hI, Matrix.one_apply]
    split <;> norm_num
  simp only [FPdt, P, Matrix.of_apply]
  exact mul_nonneg (mul_nonneg hF (add_nonneg (div_nonneg hG hF) hone)) hdt

theorem vecMul_nonneg {v : Fin n → ℝ} {M : Matrix (Fin n) (Fin n) ℝ}
    (hv : ∀ j, 0 ≤ v j) (hM : ∀ i j, 0 ≤ M i j) (j : Fin n) :
    0 ≤ Matrix.vecMul v M j := by
  simp only [Matrix.vecMul, Matrix.dotProduct]
  exact Finset.sum_nonneg fun i _ => mul_nonneg (hv i) (hM i j)

theorem seriesLoop_bounds (lgam : List ℝ) {M : Matrix (Fin n) (Fin n) ℝ} {svec : Fin n → ℝ}
    (hM : ∀ i j, 0 ≤ M i j) (hv : ∀ j, 0 ≤ svec j) (k : Nat) :
    (∀ j, 0 ≤ (seriesLoop Real.exp lgam M svec k).1 j) ∧
      (∀ j, svec j ≤ (seriesLoop Real.exp lgam M svec k).2 j) := by
  induction k with
  | zero => exact ⟨hv, fun j => le_refl _⟩
  | succ k ih =>
    rw [seriesLoop_succ]
    have h1 : ∀ j, 0 ≤ Matrix.vecMul (seriesLoop Real.exp lgam M svec k).1 M j :=
      fun j => vecMul_nonneg ih.1 hM j
    refine ⟨h1, fun j => ?_⟩
    have h2 : 0 ≤ Matrix.vecMul (seriesLoop Real.exp lgam M svec k).1 M j /
        Real.exp (lgam.getD k 0) := div_nonneg (h1 j) (Real.exp_pos _).le
    have h3 := ih.2 j
    show svec j ≤ _ + _
    linarith

theorem forwardAcc_ge (c : Consts ℝ n) {svec : Fin n → ℝ} {Dx Dy : ℝ}
    (hns : ∀ i j, 0 ≤ c.Sns i j) (hew : ∀ i j, 0 ≤ c.Sew i j) (hI : c.I = 1)
    (hdt : 0 ≤ c.dt) (hx : 0 ≤ Dx) (hy : 0 ≤ Dy) (hv : ∀ j, 0 ≤ svec j) (j : Fin n) :
    svec j * Real.exp (-F Dx Dy * c.dt) ≤ forwardAcc Real.exp c svec Dx Dy j := by
  simp only [forwardAcc]
  exact mul_le_mul_of_nonneg_right
    ((seriesLoop_bounds c.lgam (FPdt_nonneg c hns hew hI hdt hx hy) hv _).2 j)
    (Real.exp_pos _).le

theorem forwardAcc_nonneg (c : Consts ℝ n) {svec : Fin n → ℝ} {Dx Dy : ℝ}
    (hns : ∀ i j, 0 ≤ c.Sns i j) (hew : ∀ i j, 0 ≤ c.Sew i j) (hI : c.I = 1)
    (hdt : 0 ≤ c.dt) (hx : 0 ≤ Dx) (hy : 0 ≤ Dy) (hv : ∀ j, 0 ≤ svec j) (j : Fin n) :
    0 ≤ forwardAcc Real.exp c svec Dx Dy j :=
  le_trans (mul_nonneg (hv j) (Real.exp_pos _).le)
    (forwardAcc_ge c hns hew hI hdt hx hy hv j)

theorem forwardAcc_sum_pos (c : Consts ℝ n) {svec : Fin n → ℝ} {Dx Dy : ℝ}
    (hns : ∀ i j, 0 ≤ c.Sns i j) (hew : ∀ i j, 0 ≤ c.Sew i j) (hI : c.I = 1)
    (hdt : 0 ≤ c.dt) (hx : 0 ≤ Dx) (hy : 0 ≤ Dy) (hv : ∀ j, 0 ≤ svec j)
    (hs : 0 < ∑ j, svec j) :
    0 < ∑ j, forwardAcc Real.exp c svec Dx Dy j := by
  have h1 : (∑ j, svec j) * Real.exp (-F Dx Dy * c.dt) ≤
      ∑ j, forwardAcc Real.exp c svec Dx Dy j := by
    rw [Finset.sum_mul]
    exact Finset.sum_le_sum fun j _ => forwardAcc_ge c hns hew hI hdt hx hy hv j
  exact lt_of_lt_of_le (mul_pos hs (Real.exp_pos _)) h1

theorem forwardProject_nonneg (c : Consts ℝ n) {svec : Fin n → ℝ} {Dx Dy : ℝ}
    (hns : ∀ i j, 0 ≤ c.Sns i j) (hew : ∀ i j, 0 ≤ c.Sew i j) (hI : c.I = 1)
    (hdt : 0 ≤ c.dt) (hx : 0 ≤ Dx) (hy : 0 ≤ Dy) (hv : ∀ j, 0 ≤ svec j) (j : Fin n) :
    0 ≤ forwardProject Real.exp c svec Dx Dy j := by
  simp only [forwardProject]
  exact div_nonneg (forwardAcc_nonneg c hns hew hI hdt hx hy hv j)
    (Finset.sum_nonneg fun k _ => forwardAcc_nonneg c hns hew hI hdt hx hy hv k)

theorem forwardProject_sum (c : Consts ℝ n) {svec : Fin n → ℝ} {Dx Dy : ℝ}
    (hns : ∀ i j, 0 ≤ c.Sns i j) (hew : ∀ i j, 0 ≤ c.Sew i j) (hI : c.I = 1)
    (hdt : 0 ≤ c.dt) (hx : 0 ≤ Dx) (hy : 0 ≤ Dy) (hv : ∀ j, 0 ≤ svec j)
    (hs : 0 < ∑ j, svec j) :
    ∑ j, forwardProject Real.exp c svec Dx Dy j = 1 :=
  forwardProject_sum_of_ne _ c svec Dx Dy
    (forwardAcc_sum_pos c hns hew hI hdt hx hy hv hs).ne.symm

theorem F_comm (Dx Dy : K) : F Dy Dx = F Dx Dy := by
  simp only [F, add_comm]

theorem chain4_Sew_nonneg (lg : ℝ → ℝ) (i j : Fin 4) : 0 ≤ (chain4 lg).Sew i j := by
  fin_cases i <;> fin_cases j <;> simp [chain4, chainSew, Matrix.vecHead, Matrix.vecTail]

theorem chain4_Sns_nonneg (lg : ℝ → ℝ) (i j : Fin 4) : 0 ≤ (chain4 lg).Sns i j := by
  simp [chain4]

theorem uniform4_sum : ∑ j, (uniform4 : Fin 4 → ℝ) j = 1 := by
  simp only [uniform4, Fin.sum_univ_four]
  norm_num

theorem uniform4_nonneg (j : Fin 4) : 0 ≤ (uniform4 : Fin 4 → ℝ) j := by
  simp only [uniform4]
  norm_num

/-! ## Claims on the projector -/

/-- C1: on a grid context with nonnegative skeletons, `I` the identity, `dt > 0`,
any `m ≥ 0` and any `lgam` of length `m`, for a vector `v` with nonnegative entries
summing to 1 and `Dx, Dy > 0`, the renormalisation divisor `sum(acc)` is nonzero and
the entries of `forwardProject(v, Dx, Dy)` sum to exactly 1. -/
theorem C1_forwardProject_sum_one (c : Consts ℝ n) (v : Fin n → ℝ) (Dx Dy : ℝ)
    (hns : ∀ i j, 0 ≤ c.Sns i j) (hew : ∀ i j, 0 ≤ c.Sew i j) (hI : c.I = 1)
    (hdt : 0 < c.dt) (_hm : 0 ≤ c.m) (_hl : (c.lgam.length : Int) = c.m)
    (hv : ∀ j, 0 ≤ v j) (hs : ∑ j, v j = 1) (hx : 0 < Dx) (hy : 0 < Dy) :
    (∑ j, forwardAcc Real.exp c v Dx Dy j) ≠ 0 ∧
      ∑ j, forwardProject Real.exp c v Dx Dy j = 1 := by
  have hpos : 0 < ∑ j, v j := by rw [hs]; exact one_pos
  exact ⟨(forwardAcc_sum_pos c hns hew hI hdt.le hx.le hy.le hv hpos).ne.symm,
    forwardProject_sum c hns hew hI hdt.le hx.le hy.le hv hpos⟩

/-- Witness of C1: the 4-cell chain with the uniform vector, `Dx = 1/2`, `Dy = 1`. -/
theorem C1_forwardProject_sum_one_witness :
    (∑ j, forwardAcc Real.exp (chain4 Real.log) uniform4 (1 / 2) 1 j) ≠ 0 ∧
      ∑ j, forwardProject Real.exp (chain4 Real.log) uniform4 (1 / 2) 1 j = 1 :=
  C1_forwardProject_sum_one (chain4 Real.log) uniform4 (1 / 2) 1
    (chain4_Sns_nonneg _) (chain4_Sew_nonneg _) rfl (by simp [chain4]) (by simp [chain4])
    (by simp [chain4]) uniform4_nonneg uniform4_sum (by norm_num) (by norm_num)

/-- C2: on a grid context with nonnegative skeletons, `I` the identity, `dt > 0`,
any `m ≥ 0` and any `lgam` of length `m`, for a vector `v` with nonnegative entries
summing to 1 and `Dx, Dy > 0`, every entry of `forwardProject(v, Dx, Dy)` is `≥ 0`. -/
theorem C2_forwardProject_nonneg (c : Consts ℝ n) (v : Fin n → ℝ) (Dx Dy : ℝ)
    (hns : ∀ i j, 0 ≤ c.Sns i j) (hew : ∀ i j, 0 ≤ c.Sew i j) (hI : c.I = 1)
    (hdt : 0 < c.dt) (_hm : 0 ≤ c.m) (_hl : (c.lgam.length : Int) = c.m)
    (hv : ∀ j, 0 ≤ v j) (_hs : ∑ j, v j = 1) (hx : 0 < Dx) (hy : 0 < Dy) :
    ∀ j, 0 ≤ forwardProject Real.exp c v Dx Dy j :=
  fun j => forwardProject_nonneg c hns hew hI hdt.le hx.le hy.le hv j

/-- Witness of C2: the 4-cell chain with the uniform vector, `Dx = 1/2`, `Dy = 1`. -/
theorem C2_forwardProject_nonneg_witness :
    0 ≤ forwardProject Real.exp (chain4 Real.log) uniform4 (1 / 2) 1 0 :=
  C2_forwardProject_nonneg (chain4 Real.log) uniform4 (1 / 2) 1
    (chain4_Sns_nonneg _) (chain4_Sew_nonneg _) rfl (by simp [chain4]) (by simp [chain4])
    (by simp [chain4]) uniform4_nonneg uniform4_sum (by norm_num) (by norm_num) 0

/-- C8: projecting with the skeletons swapped and the rates swapped gives exactly the
same vector as the original projection; in particular, when `Sns = Sew`,
`forwardProject(v, Dx, Dy) = forwardProject(v, Dy, Dx)`. -/
theorem C8_directional_symmetry (ex : K → K) (c : Consts K n) (svec : Fin n → K) (Dx Dy : K) :
    forwardProject ex { c with Sns := c.Sew, Sew := c.Sns } svec Dy Dx =
        forwardProject ex c svec Dx Dy ∧
      (c.Sns = c.Sew → forwardProject ex c svec Dx Dy = forwardProject ex c svec Dy Dx) := by
  constructor
  · have hG : G { c with Sns := c.Sew, Sew := c.Sns } Dy Dx = G c Dx Dy := by
      ext i j
      simp only [G, Matrix.of_apply]
      ring
    simp only [forwardProject, forwardAcc, FPdt, P, hG, F_comm Dx Dy]
  · intro h
    have hG : G c Dx Dy = G c Dy Dx := by
      ext i j
      simp only [G, Matrix.of_apply, h]
      ring
    simp only [forwardProject, forwardAcc, FPdt, P, hG, F_comm Dx Dy]

/-- Witness of C8: the two-cell grid with `Sns = Sew`, rates 2 and 3. -/
theorem C8_directional_symmetry_witness :
    forwardProject Real.exp (twoCell : Consts ℝ 2) ![1, 0] 2 3 =
      forwardProject Real.exp (twoCell : Consts ℝ 2) ![1, 0] 3 2 :=
  (C8_directional_symmetry Real.exp (twoCell : Consts ℝ 2) ![1, 0] 2 3).2 rfl

theorem seriesLoop_closed (ex : K → K) (lgam : List K) (M : Matrix (Fin n) (Fin n) K)
    (svec : Fin n → K) (k : Nat) :
    (seriesLoop ex lgam M svec k).1 = Matrix.vecMul svec (M ^ k) ∧
      ∀ j, (seriesLoop ex lgam M svec k).2 j =
        svec j + ∑ i in Finset.range k, Matrix.vecMul svec (M ^ (i + 1)) j / ex (lgam.getD i 0) := by
  induction k with
  | zero => simp [seriesLoop]
  | succ k ih =>
    rw [seriesLoop_succ]
    obtain ⟨h1, h2⟩ := ih
    have h3 : Matrix.vecMul (seriesLoop ex lgam M svec k).1 M = Matrix.vecMul svec (M ^ (k + 1)) := by
      rw [h1, Matrix.vecMul_vecMul, pow_succ]
    refine ⟨h3, fun j => ?_⟩
    show (seriesLoop ex lgam M svec k).2 j + _ = _
    rw [h3, h2 j, Finset.sum_range_succ]
    ring

theorem oneCell_FPdt : FPdt (oneCell Real.log) (1 / 4) (1 / 4) = 1 := by
  ext i j
  have hi : i = 0 := Subsingleton.elim _ _
  have hj : j = 0 := Subsingleton.elim _ _
  subst hi; subst hj
  simp [FPdt, P, G, F, oneCell]
  norm_num

theorem getD_map_range (f : Nat → ℝ) (m i : Nat) (h : i < m) :
    ((List.range m).map f).getD i 0 = f i := by
  simp [List.getD_eq_getElem?_getD, h]

/-- C3 (as stated, refuted): on a single cell with `m = 2` and `lgam = [log 0!, log 1!]`
the accumulator is `3 * exp(-1)`, while the series with coefficients `1/k!` gives
`(5/2) * exp(-1)`. -/
theorem C3_counterexample :
    (oneCell Real.log).lgam =
        (List.range (oneCell Real.log).m.toNat).map (fun k => Real.log (Nat.factorial k : ℝ)) ∧
      forwardAcc Real.exp (oneCell Real.log) ![1] (1 / 4) (1 / 4) 0 = 3 * Real.exp (-1) ∧
      Real.exp (-F (1 / 4) (1 / 4) * (oneCell Real.log).dt) *
        ∑ k in Finset.range ((oneCell Real.log).m.toNat + 1),
          Matrix.vecMul ![1] (FPdt (oneCell Real.log) (1 / 4) (1 / 4) ^ k) 0 /
            (Nat.factorial k : ℝ) = 5 / 2 * Real.exp (-1) ∧
      forwardAcc Real.exp (oneCell Real.log) ![1] (1 / 4) (1 / 4) 0 ≠
        Real.exp (-F (1 / 4) (1 / 4) * (oneCell Real.log).dt) *
          ∑ k in Finset.range ((oneCell Real.log).m.toNat + 1),
            Matrix.vecMul ![1] (FPdt (oneCell Real.log) (1 / 4) (1 / 4) ^ k) 0 /
              (Nat.factorial k : ℝ) := by
  have h1 : forwardAcc Real.exp (oneCell Real.log) ![1] (1 / 4) (1 / 4) 0 =
      3 * Real.exp (-1) := by
    simp only [forwardAcc, (seriesLoop_closed _ _ _ _ _).2, oneCell_FPdt]
    simp [oneCell, F, Finset.sum_range_succ]
    norm_num
  have h2 : Real.exp (-F (1 / 4) (1 / 4) * (oneCell Real.log).dt) *
        ∑ k in Finset.range ((oneCell Real.log).m.toNat + 1),
          Matrix.vecMul ![1] (FPdt (oneCell Real.log) (1 / 4) (1 / 4) ^ k) 0 /
            (Nat.factorial k : ℝ) = 5 / 2 * Real.exp (-1) := by
    simp only [oneCell_FPdt]
    simp [oneCell, F, Finset.sum_range_succ, Nat.factorial]
    norm_num
    ring
  refine ⟨rfl, h1, h2, ?_⟩
  rw [h1, h2]
  have := Real.exp_pos (-1)
  intro h
  linarith

/-- C3 (amended): when `lgam[k] = log((k+1)!)` for `k = 0 .. m-1`, the accumulator built
by `forwardProject` before its final renormalisation equals
`exp(-F*dt) * sum_{k=0}^{m} svec * Q^k / k!`, where `Q = FPdt = F*dt*(G/F + I)`. -/
theorem C3_series_amended (c : Consts ℝ n) (svec : Fin n → ℝ) (Dx Dy : ℝ)
    (hl : c.lgam = (List.range c.m.toNat).map (fun k => Real.log (Nat.factorial (k + 1) : ℝ))) :
    (FPdt c Dx Dy =
        Matrix.of fun i j => F Dx Dy * c.dt * (G c Dx Dy i j / F Dx Dy + c.I i j)) ∧
      ∀ j, forwardAcc Real.exp c svec Dx Dy j =
        Real.exp (-F Dx Dy * c.dt) *
          ∑ k in Finset.range (c.m.toNat + 1),
            Matrix.vecMul svec (FPdt c Dx Dy ^ k) j / (Nat.factorial k : ℝ) := by
  constructor
  · ext i j
    simp only [FPdt, P, Matrix.of_apply]
    ring
  · intro j
    simp only [forwardAcc, (seriesLoop_closed _ _ _ _ _).2]
    rw [Finset.sum_range_succ', mul_comm]
    congr 1
    rw [add_comm]
    congr 1
    · refine Finset.sum_congr rfl fun i hi => ?_
      rw [hl, getD_map_range _ _ _ (Finset.mem_range.mp hi), Real.exp_log]
      exact_mod_cast Nat.factorial_pos _
    · simp

/-- Witness of C3 (amended): the two-term series on a single cell with
`m = 2` and `lgam = [log 1!, log 2!]`. -/
theorem C3_series_amended_witness :
    forwardAcc Real.exp (oneCellNext Real.log) ![1] (1 / 4) (1 / 4) 0 =
      Real.exp (-F (1 / 4) (1 / 4) * (oneCellNext Real.log).dt) *
        ∑ k in Finset.range ((oneCellNext Real.log).m.toNat + 1),
          Matrix.vecMul ![1] (FPdt (oneCellNext Real.log) (1 / 4) (1 / 4) ^ k) 0 /
            (Nat.factorial k : ℝ) :=
  (C3_series_amended (oneCellNext Real.log) ![1] (1 / 4) (1 / 4) rfl).2 0

/-! ## The forward filter: characteristic equations -/

section FilterEquations

variable (ex : K → K) (c : Consts K n) (datlik : Fin nt → Fin n → K) (Dx Dy : K)
  (g : Grids K nt n)

theorem filterStep_pred (t : Nat) (h1 : 1 ≤ t) (ht : t < nt) (s : Fin nt) :
    (filterStep ex c datlik Dx Dy t h1 ht g).pred s =
      if s = ⟨t, ht⟩ then forwardProject ex c (g.phi ⟨t - 1, by omega⟩) Dx Dy else g.pred s := by
  simp only [filterStep, Function.update_apply, ForwardProject_eq]

theorem filterStep_psi (t : Nat) (h1 : 1 ≤ t) (ht : t < nt) (i : Fin (nt - 1)) :
    (filterStep ex c datlik Dx Dy t h1 ht g).psi i =
      if i = ⟨t - 1, by omega⟩ then
        ∑ j, forwardProject ex c (g.phi ⟨t - 1, by omega⟩) Dx Dy j * datlik ⟨t, ht⟩ j
      else g.psi i := by
  simp only [filterStep, Function.update_apply, ForwardProject_eq, if_true]

theorem filterStep_phi (t : Nat) (h1 : 1 ≤ t) (ht : t < nt) (s : Fin nt) :
    (filterStep ex c datlik Dx Dy t h1 ht g).phi s =
      if s = ⟨t, ht⟩ then
        fun j => forwardProject ex c (g.phi ⟨t - 1, by omega⟩) Dx Dy j * datlik ⟨t, ht⟩ j /
          ((∑ k, forwardProject ex c (g.phi ⟨t - 1, by omega⟩) Dx Dy k * datlik ⟨t, ht⟩ k) +
            1e-20)
      else g.phi s := by
  simp only [filterStep, Function.update_apply, ForwardProject_eq, if_true]

theorem filterStep_smoo (t : Nat) (h1 : 1 ≤ t) (ht : t < nt) :
    (filterStep ex c datlik Dx Dy t h1 ht g).smoo = g.smoo := rfl

theorem filterLoop_succ (k : Nat) (hk : k + 1 < nt) :
    filterLoop ex c datlik Dx Dy g (k + 1) hk =
      filterStep ex c datlik Dx Dy (k + 1) (by omega) hk
        (filterLoop ex c datlik Dx Dy g k (by omega)) := rfl

/-- Rows `t ≤ k` of `pred` and `phi` are final after `k` iterations. -/
theorem filterLoop_rows_stable (k : Nat) (hk : k < nt) (d : Nat) (hd : k + d < nt)
    (t : Nat) (ht : t ≤ k) :
    (filterLoop ex c datlik Dx Dy g (k + d) hd).pred ⟨t, by omega⟩ =
        (filterLoop ex c datlik Dx Dy g k hk).pred ⟨t, by omega⟩ ∧
      (filterLoop ex c datlik Dx Dy g (k + d) hd).phi ⟨t, by omega⟩ =
        (filterLoop ex c datlik Dx Dy g k hk).phi ⟨t, by omega⟩ := by
  induction d with
  | zero => exact ⟨rfl, rfl⟩
  | succ d ih =>
    have hd2 : k + d < nt := by omega
    have hne : (⟨t, by omega⟩ : Fin nt) ≠ ⟨k + d + 1, hd⟩ := by
      intro h
      have := Fin.mk.inj h
      omega
    have e : filterLoop ex c datlik Dx Dy g (k + (d + 1)) hd =
        filterStep ex c datlik Dx Dy (k + d + 1) (by omega) hd
          (filterLoop ex c datlik Dx Dy g (k + d) hd2) := rfl
    rw [e, filterStep_pred, filterStep_phi, if_neg hne, if_neg hne]
    exact ih hd2

/-- Entries `i < k` of `psi` are final after `k` iterations. -/
theorem filterLoop_psi_stable (k : Nat) (hk : k < nt) (d : Nat) (hd : k + d < nt)
    (i : Nat) (hi : i < k) :
    (filterLoop ex c datlik Dx Dy g (k + d) hd).psi ⟨i, by omega⟩ =
      (filterLoop ex c datlik Dx Dy g k hk).psi ⟨i, by omega⟩ := by
  induction d with
  | zero => rfl
  | succ d ih =>
    have hd2 : k + d < nt := by omega
    have hne : (⟨i, by omega⟩ : Fin (nt - 1)) ≠ ⟨k + d + 1 - 1, by omega⟩ := by
      intro h
      have := Fin.mk.inj h
      omega
    have e : filterLoop ex c datlik Dx Dy g (k + (d + 1)) hd =
        filterStep ex c datlik Dx Dy (k + d + 1) (by omega) hd
          (filterLoop ex c datlik Dx Dy g (k + d) hd2) := rfl
    rw [e, filterStep_psi, if_neg hne]
    exact ih hd2

theorem filterLoop_smoo (k : Nat) (hk : k < nt) :
    (filterLoop ex c datlik Dx Dy g k hk).smoo = g.smoo := by
  induction k with
  | zero => rfl
  | succ k ih => rw [filterLoop_succ, filterStep_smoo]; exact ih (by omega)

theorem filterLoop_rows_final (k k2 : Nat) (hk : k < nt) (hk2 : k2 < nt) (hkk : k ≤ k2)
    (t : Nat) (ht : t ≤ k) :
    (filterLoop ex c datlik Dx Dy g k2 hk2).pred ⟨t, by omega⟩ =
        (filterLoop ex c datlik Dx Dy g k hk).pred ⟨t, by omega⟩ ∧
      (filterLoop ex c datlik Dx Dy g k2 hk2).phi ⟨t, by omega⟩ =
        (filterLoop ex c datlik Dx Dy g k hk).phi ⟨t, by omega⟩ := by
  obtain ⟨d, rfl⟩ := Nat.exists_eq_add_of_le hkk
  exact filterLoop_rows_stable ex c datlik Dx Dy g k hk d hk2 t ht

theorem filterLoop_psi_final (k k2 : Nat) (hk : k < nt) (hk2 : k2 < nt) (hkk : k ≤ k2)
    (i : Nat) (hi : i < k) :
    (filterLoop ex c datlik Dx Dy g k2 hk2).psi ⟨i, by omega⟩ =
      (filterLoop ex c datlik Dx Dy g k hk).psi ⟨i, by omega⟩ := by
  obtain ⟨d, rfl⟩ := Nat.exists_eq_add_of_le hkk
  exact filterLoop_psi_stable ex c datlik Dx Dy g k hk d hk2 i hi

variable (hnt : 0 < nt)

theorem forwardFilter_pred_zero :
    (forwardFilter ex c datlik Dx Dy hnt g).pred ⟨0, hnt⟩ =
      fun j => datlik ⟨0, hnt⟩ j / ∑ k, datlik ⟨0, hnt⟩ k := by
  rw [forwardFilter,
    (filterLoop_rows_final ex c datlik Dx Dy g 0 (nt - 1) hnt (by omega) (Nat.zero_le _) 0
      (le_refl 0)).1]
  simp [filterLoop, filterInit]

theorem forwardFilter_phi_zero :
    (forwardFilter ex c datlik Dx Dy hnt g).phi ⟨0, hnt⟩ =
      fun j => datlik ⟨0, hnt⟩ j / ∑ k, datlik ⟨0, hnt⟩ k := by
  rw [forwardFilter,
    (filterLoop_rows_final ex c datlik Dx Dy g 0 (nt - 1) hnt (by omega) (Nat.zero_le _) 0
      (le_refl 0)).2]
  simp [filterLoop, filterInit]

theorem forwardFilter_pred_succ (t : Nat) (ht : t + 1 < nt) :
    (forwardFilter ex c datlik Dx Dy hnt g).pred ⟨t + 1, ht⟩ =
      forwardProject ex c ((forwardFilter ex c datlik Dx Dy hnt g).phi ⟨t, by omega⟩) Dx Dy := by
  have ht0 : t < nt := by omega
  rw [forwardFilter,
    (filterLoop_rows_final ex c datlik Dx Dy g (t + 1) (nt - 1) ht (by omega) (by omega) (t + 1)
      (le_refl _)).1,
    (filterLoop_rows_final ex c datlik Dx Dy g t (nt - 1) ht0 (by omega) (by omega) t
      (le_refl _)).2,
    filterLoop_succ, filterStep_pred, if_pos rfl]
  rfl

theorem forwardFilter_psi (t : Nat) (ht : t + 1 < nt) :
    (forwardFilter ex c datlik Dx Dy hnt g).psi ⟨t, by omega⟩ =
      ∑ j, (forwardFilter ex c datlik Dx Dy hnt g).pred ⟨t + 1, ht⟩ j * datlik ⟨t + 1, ht⟩ j := by
  have ht0 : t < nt := by omega
  rw [forwardFilter_pred_succ ex c datlik Dx Dy g hnt t ht, forwardFilter,
    filterLoop_psi_final ex c datlik Dx Dy g (t + 1) (nt - 1) ht (by omega) (by omega) t
      (Nat.lt_succ_self t),
    (filterLoop_rows_final ex c datlik Dx Dy g t (nt - 1) ht0 (by omega) (by omega) t
      (le_refl _)).2,
    filterLoop_succ, filterStep_psi]
  exact if_pos rfl

theorem forwardFilter_phi_succ (t : Nat) (ht : t + 1 < nt) :
    (forwardFilter ex c datlik Dx Dy hnt g).phi ⟨t + 1, ht⟩ =
      fun j => (forwardFilter ex c datlik Dx Dy hnt g).pred ⟨t + 1, ht⟩ j *
        datlik ⟨t + 1, ht⟩ j /
          ((forwardFilter ex c datlik Dx Dy hnt g).psi ⟨t, by omega⟩ + 1e-20) := by
  have ht0 : t < nt := by omega
  rw [forwardFilter_psi ex c datlik Dx Dy g hnt t ht,
    forwardFilter_pred_succ ex c datlik Dx Dy g hnt t ht, forwardFilter,
    (filterLoop_rows_final ex c datlik Dx Dy g (t + 1) (nt - 1) ht (by omega) (by omega) (t + 1)
      (le_refl _)).2,
    (filterLoop_rows_final ex c datlik Dx Dy g t (nt - 1) ht0 (by omega) (by omega) t
      (le_refl _)).2,
    filterLoop_succ, filterStep_phi, if_pos rfl]
  rfl

theorem forwardFilter_smoo :
    (forwardFilter ex c datlik Dx Dy hnt g).smoo = g.smoo :=
  filterLoop_smoo ex c datlik Dx Dy g _ _

end FilterEquations

/-! ## The smoother: frame lemmas -/

section SmootherFrame

variable (ex : K → K) (c : Consts K n) (Dx Dy : K) (hnt : 0 < nt) (g : Grids K nt n)

theorem smoothLoop_frame (k : Nat) (hk : k < nt) :
    (smoothLoop ex c Dx Dy hnt g k hk).pred = g.pred ∧
      (smoothLoop ex c Dx Dy hnt g k hk).phi = g.phi ∧
      (smoothLoop ex c Dx Dy hnt g k hk).psi = g.psi := by
  induction k with
  | zero => exact ⟨rfl, rfl, rfl⟩
  | succ k ih => exact ih (by omega)

/-- The smoothing loop never overwrites row `nt-1` of `smoo`. -/
theorem smoothLoop_last (k : Nat) (hk : k < nt) :
    (smoothLoop ex c Dx Dy hnt g k hk).smoo ⟨nt - 1, by omega⟩ = g.phi ⟨nt - 1, by omega⟩ := by
  induction k with
  | zero => simp [smoothLoop]
  | succ k ih =>
    have hne : (⟨nt - 1, by omega⟩ : Fin nt) ≠ ⟨nt - (k + 1) - 1, by omega⟩ := by
      intro h
      have := Fin.mk.inj h
      omega
    show Function.update _ _ _ _ = _
    rw [Function.update_noteq hne]
    exact ih (by omega)

theorem smoothing_frame (dosmoo : Int) :
    (smoothing ex c Dx Dy dosmoo hnt g).pred = g.pred ∧
      (smoothing ex c Dx Dy dosmoo hnt g).phi = g.phi ∧
      (smoothing ex c Dx Dy dosmoo hnt g).psi = g.psi := by
  unfold smoothing
  split
  · exact smoothLoop_frame ex c Dx Dy hnt g _ _
  · exact ⟨rfl, rfl, rfl⟩

end SmootherFrame

/-- C7: when smoothing is requested (`dosmoo = 1`) and `nt ≥ 1`, the last smoothed row
equals the last filtered row exactly, `smoo[nt-1] = phi[nt-1]`, for every `datlik`,
`logDx`, `logDy`, grid context and initial content of the arrays. -/
theorem C7_last_smoothed_row (ex lg : K → K) (c : Consts K n) (datlik : Fin nt → Fin n → K)
    (logDx logDy : K) (g : Grids K nt n) (hnt : 0 < nt) :
    (evaluate ex lg c datlik 1 logDx logDy hnt g).2.smoo ⟨nt - 1, by omega⟩ =
      (evaluate ex lg c datlik 1 logDx logDy hnt g).2.phi ⟨nt - 1, by omega⟩ := by
  simp only [evaluate, smoothing, if_true]
  rw [smoothLoop_last, (smoothLoop_frame _ _ _ _ _ _ _ _).2.1]

/-- Witness of C7: the 4-cell chain with three all-ones observation rows. -/
theorem C7_last_smoothed_row_witness :
    (evaluate Real.exp Real.log (chain4 Real.log) (onesLik 3 4) 1 0 0 (by norm_num)
        (zeroGrids 3 4)).2.smoo ⟨3 - 1, by omega⟩ =
      (evaluate Real.exp Real.log (chain4 Real.log) (onesLik 3 4) 1 0 0 (by norm_num)
        (zeroGrids 3 4)).2.phi ⟨3 - 1, by omega⟩ :=
  C7_last_smoothed_row Real.exp Real.log (chain4 Real.log) (onesLik 3 4) 0 0 (zeroGrids 3 4)
    (by norm_num)

/-- C6: for `datlik` with exactly one row of positive sum, the evaluation raises no error,
returns `negLogLik = 0` exactly, and the returned arrays are the allocated arrays with only
row 0 of `pred` and `phi` set to `datlik[0] / sum(datlik[0])` (and, when `dosmoo = 1`, row 0
of `smoo` set to `phi[0]`): no projection is performed (the result involves neither the
grid context nor `logDx`, `logDy`), and `psi` has length `nt - 1 = 0`. -/
theorem C6_single_row (c : Consts ℝ n) (datlik : Fin 1 → Fin n → ℝ) (dosmoo : Int)
    (logDx logDy : ℝ) (g : Grids ℝ 1 n) (hpos : 0 < ∑ j, datlik 0 j) :
    objective_function Real.exp Real.log c datlik dosmoo logDx logDy g =
        some (0,
          { pred := Function.update g.pred 0 (fun j => datlik 0 j / ∑ k, datlik 0 k)
            phi := Function.update g.phi 0 (fun j => datlik 0 j / ∑ k, datlik 0 k)
            psi := g.psi
            smoo := if dosmoo = 1 then
                Function.update g.smoo 0 (fun j => datlik 0 j / ∑ k, datlik 0 k)
              else g.smoo }) ∧
      Fintype.card (Fin (1 - 1)) = 0 ∧
      (∑ k, datlik 0 k) ≠ 0 ∧
      ∀ r, objective_function Real.exp Real.log c datlik dosmoo logDx logDy g = some r →
        r.1 = 0 ∧ r.2.phi 0 = (fun j => datlik 0 j / ∑ k, datlik 0 k) ∧
          r.2.pred 0 = r.2.phi 0 := by
  have h : objective_function Real.exp Real.log c datlik dosmoo logDx logDy g =
        some (0,
          { pred := Function.update g.pred 0 (fun j => datlik 0 j / ∑ k, datlik 0 k)
            phi := Function.update g.phi 0 (fun j => datlik 0 j / ∑ k, datlik 0 k)
            psi := g.psi
            smoo := if dosmoo = 1 then
                Function.update g.smoo 0 (fun j => datlik 0 j / ∑ k, datlik 0 k)
              else g.smoo }) := by
    simp only [objective_function, evaluate, forwardFilter, filterLoop, filterInit, negLogLik,
      smoothing, smoothLoop]
    by_cases hd : dosmoo = 1 <;> simp [hd]
  refine ⟨h, rfl, hpos.ne.symm, fun r hr => ?_⟩
  rw [h] at hr
  cases Option.some.inj hr
  simp

/-- Witness of C6: two cells, the single observation row `[1, 3]`. -/
theorem C6_single_row_witness :
    objective_function Real.exp Real.log (twoCell : Consts ℝ 2) (fun _ => ![1, 3]) 1 0 0
        (zeroGrids 1 2) =
      some (0,
        { pred := Function.update (zeroGrids 1 2).pred 0
            (fun j => (![1, 3] : Fin 2 → ℝ) j / ∑ k, (![1, 3] : Fin 2 → ℝ) k)
          phi := Function.update (zeroGrids 1 2).phi 0
            (fun j => (![1, 3] : Fin 2 → ℝ) j / ∑ k, (![1, 3] : Fin 2 → ℝ) k)
          psi := (zeroGrids 1 2).psi
          smoo := if (1 : Int) = 1 then
              Function.update (zeroGrids 1 2).smoo 0
                (fun j => (![1, 3] : Fin 2 → ℝ) j / ∑ k, (![1, 3] : Fin 2 → ℝ) k)
            else (zeroGrids 1 2).smoo }) :=
  (C6_single_row (twoCell : Consts ℝ 2) (fun _ => ![1, 3]) 1 0 0 (zeroGrids 1 2)
    (by simp [Fin.sum_univ_two]; norm_num)).1

/-! ## The forward filter under strictly positive observations -/

theorem forwardProject_pos (c : Consts ℝ n) {svec : Fin n → ℝ} {Dx Dy : ℝ}
    (hns : ∀ i j, 0 ≤ c.Sns i j) (hew : ∀ i j, 0 ≤ c.Sew i j) (hI : c.I = 1)
    (hdt : 0 ≤ c.dt) (hx : 0 ≤ Dx) (hy : 0 ≤ Dy) (hv : ∀ j, 0 < svec j) (j : Fin n) :
    0 < forwardProject Real.exp c svec Dx Dy j := by
  have hv0 : ∀ j, 0 ≤ svec j := fun j => (hv j).le
  have hs : 0 < ∑ k, svec k := Finset.sum_pos (fun k _ => hv k) ⟨j, Finset.mem_univ j⟩
  simp only [forwardProject]
  exact div_pos
    (lt_of_lt_of_le (mul_pos (hv j) (Real.exp_pos _)) (forwardAcc_ge c hns hew hI hdt hx hy hv0 j))
    (forwardAcc_sum_pos c hns hew hI hdt hx hy hv0 hs)

theorem eps_pos : (0 : ℝ) < 1e-20 := by norm_num

section FilterInvariant

variable (c : Consts ℝ n) (datlik : Fin nt → Fin n → ℝ) (Dx Dy : ℝ) (g : Grids ℝ nt n)
  (hnt : 0 < nt)
  (hns : ∀ i j, 0 ≤ c.Sns i j) (hew : ∀ i j, 0 ≤ c.Sew i j) (hI : c.I = 1)
  (hdt : 0 ≤ c.dt) (hx : 0 ≤ Dx) (hy : 0 ≤ Dy) (hd : ∀ t j, 0 < datlik t j)

include hns hew hI hdt hx hy hd

/-- Every filtered row has strictly positive entries. -/
theorem filter_phi_pos (t : Nat) (ht : t < nt) (j : Fin n) :
    0 < (forwardFilter Real.exp c datlik Dx Dy hnt g).phi ⟨t, ht⟩ j := by
  induction t generalizing j with
  | zero =>
    rw [forwardFilter_phi_zero]
    exact div_pos (hd _ j) (Finset.sum_pos (fun k _ => hd _ k) ⟨j, Finset.mem_univ j⟩)
  | succ t ih =>
    have hp : ∀ k, 0 < (forwardFilter Real.exp c datlik Dx Dy hnt g).pred ⟨t + 1, ht⟩ k := by
      intro k
      rw [forwardFilter_pred_succ]
      exact forwardProject_pos c hns hew hI hdt hx hy (ih (by omega)) k
    rw [forwardFilter_phi_succ, forwardFilter_psi]
    exact div_pos (mul_pos (hp j) (hd _ j))
      (add_pos (Finset.sum_pos (fun k _ => mul_pos (hp k) (hd _ k)) ⟨j, Finset.mem_univ j⟩)
        eps_pos)

/-- Every predicted row after the first has strictly positive entries. -/
theorem filter_pred_pos (t : Nat) (ht : t + 1 < nt) (j : Fin n) :
    0 < (forwardFilter Real.exp c datlik Dx Dy hnt g).pred ⟨t + 1, ht⟩ j := by
  rw [forwardFilter_pred_succ]
  exact forwardProject_pos c hns hew hI hdt hx hy
    (filter_phi_pos c datlik Dx Dy g hnt hns hew hI hdt hx hy hd t (by omega)) j

/-- Every predicted row after the first sums to 1 (needs at least one cell). -/
theorem filter_pred_sum (hn : 0 < n) (t : Nat) (ht : t + 1 < nt) :
    ∑ j, (forwardFilter Real.exp c datlik Dx Dy hnt g).pred ⟨t + 1, ht⟩ j = 1 := by
  rw [forwardFilter_pred_succ]
  have hpos := filter_phi_pos c datlik Dx Dy g hnt hns hew hI hdt hx hy hd t (by omega)
  exact forwardProject_sum c hns hew hI hdt hx hy (fun j => (hpos j).le)
    (Finset.sum_pos (fun k _ => hpos k) ⟨⟨0, hn⟩, Finset.mem_univ _⟩)

/-- Every normaliser `psi[t]` is strictly positive (needs at least one cell). -/
theorem filter_psi_pos (hn : 0 < n) (t : Nat) (ht : t + 1 < nt) :
    0 < (forwardFilter Real.exp c datlik Dx Dy hnt g).psi ⟨t, by omega⟩ := by
  rw [forwardFilter_psi]
  exact Finset.sum_pos
    (fun k _ => mul_pos (filter_pred_pos c datlik Dx Dy g hnt hns hew hI hdt hx hy hd t ht k)
      (hd _ k)) ⟨⟨0, hn⟩, Finset.mem_univ _⟩

omit hns hew hI hdt hx hy hd in
/-- The mass of a filtered row after the first is `psi / (psi + 1e-20)`. -/
theorem filter_phi_sum (t : Nat) (ht : t + 1 < nt) :
    ∑ j, (forwardFilter Real.exp c datlik Dx Dy hnt g).phi ⟨t + 1, ht⟩ j =
      (forwardFilter Real.exp c datlik Dx Dy hnt g).psi ⟨t, by omega⟩ /
        ((forwardFilter Real.exp c datlik Dx Dy hnt g).psi ⟨t, by omega⟩ + 1e-20) := by
  rw [forwardFilter_phi_succ, ← Finset.sum_div, ← forwardFilter_psi]

end FilterInvariant

/-- With all-ones observations every normaliser `psi[t]` is 1. -/
theorem filter_psi_ones (c : Consts ℝ n) (Dx Dy : ℝ) (g : Grids ℝ nt n) (hnt : 0 < nt)
    (hns : ∀ i j, 0 ≤ c.Sns i j) (hew : ∀ i j, 0 ≤ c.Sew i j) (hI : c.I = 1)
    (hdt : 0 ≤ c.dt) (hx : 0 ≤ Dx) (hy : 0 ≤ Dy) (hn : 0 < n) (t : Nat) (ht : t + 1 < nt) :
    (forwardFilter Real.exp c (onesLik nt n) Dx Dy hnt g).psi ⟨t, by omega⟩ = 1 := by
  have h := filter_pred_sum c (onesLik nt n) Dx Dy g hnt hns hew hI hdt hx hy
    (fun _ _ => one_pos) hn t ht
  rw [forwardFilter_psi]
  simpa [onesLik] using h

theorem negLogLik_ones (psi : Fin (nt - 1) → ℝ) (h : ∀ i, psi i = 1) :
    negLogLik Real.log psi = 0 := by
  simp [negLogLik, h]

/-- C5: with all-ones observations, on a grid context with nonnegative skeletons, `I` the
identity, `dt > 0`, `m ≥ 0`, rates `Dx, Dy ≥ 0` with `Dx + Dy > 0`, `n ≥ 1` and `nt ≥ 1`,
the forward filter yields `psi[t] = 1` for every `t` in `0..nt-2` and
`negLogLik = -sum_t log(psi[t]) = 0`; the value returned by the evaluation is 0 for every
`logDx`, `logDy` and `dosmoo`. -/
theorem C5_uninformative_observations (c : Consts ℝ n) (Dx Dy : ℝ) (g : Grids ℝ nt n)
    (hns : ∀ i j, 0 ≤ c.Sns i j) (hew : ∀ i j, 0 ≤ c.Sew i j) (hI : c.I = 1)
    (hdt : 0 < c.dt) (_hm : 0 ≤ c.m) (hx : 0 ≤ Dx) (hy : 0 ≤ Dy) (_hF : 0 < Dx + Dy)
    (hn : 1 ≤ n) (hnt : 1 ≤ nt) :
    (∀ i : Fin (nt - 1), (forwardFilter Real.exp c (onesLik nt n) Dx Dy hnt g).psi i = 1) ∧
      negLogLik Real.log (forwardFilter Real.exp c (onesLik nt n) Dx Dy hnt g).psi = 0 ∧
      ∀ (dosmoo : Int) (logDx logDy : ℝ),
        (evaluate Real.exp Real.log c (onesLik nt n) dosmoo logDx logDy hnt g).1 = 0 := by
  have key : ∀ (Dx Dy : ℝ), 0 ≤ Dx → 0 ≤ Dy → ∀ i : Fin (nt - 1),
      (forwardFilter Real.exp c (onesLik nt n) Dx Dy hnt g).psi i = 1 := by
    intro Dx Dy hx hy i
    exact filter_psi_ones c Dx Dy g hnt hns hew hI hdt.le hx hy hn i.val (by omega)
  refine ⟨key Dx Dy hx hy, negLogLik_ones _ (key Dx Dy hx hy), fun dosmoo logDx logDy => ?_⟩
  simp only [evaluate]
  exact negLogLik_ones _ (key _ _ (Real.exp_pos _).le (Real.exp_pos _).le)

/-- Witness of C5: the 4-cell chain scenario with `nt = 3`, `Dx = 1/2`, `Dy = 0`. -/
theorem C5_uninformative_observations_witness :
    (∀ i : Fin (3 - 1), (forwardFilter Real.exp (chain4 Real.log) (onesLik 3 4) (1 / 2) 0
        (by norm_num) (zeroGrids 3 4)).psi i = 1) ∧
      negLogLik Real.log (forwardFilter Real.exp (chain4 Real.log) (onesLik 3 4) (1 / 2) 0
        (by norm_num) (zeroGrids 3 4)).psi = 0 ∧
      ∀ (dosmoo : Int) (logDx logDy : ℝ),
        (evaluate Real.exp Real.log (chain4 Real.log) (onesLik 3 4) dosmoo logDx logDy
          (by norm_num) (zeroGrids 3 4)).1 = 0 :=
  C5_uninformative_observations (chain4 Real.log) (1 / 2) 0 (zeroGrids 3 4)
    (chain4_Sns_nonneg _) (chain4_Sew_nonneg _) rfl (by simp [chain4]) (by simp [chain4])
    (by norm_num) (by norm_num) (by norm_num) (by norm_num) (by norm_num)

theorem oneCell_Sns_nonneg (i j : Fin 1) : 0 ≤ (oneCell Real.log).Sns i j := by
  simp [oneCell]

theorem oneCell_Sew_nonneg (i j : Fin 1) : 0 ≤ (oneCell Real.log).Sew i j := by
  simp [oneCell]

theorem tinyLik_pos (t : Fin 2) (j : Fin 1) : 0 < (tinyLik : Fin 2 → Fin 1 → ℝ) t j := by
  simp only [tinyLik]
  split <;> norm_num

/-- On a single cell with the observation rows `[1]`, `[1e-21]` the normaliser is
`psi[0] = 1e-21`. -/
theorem tinyLik_psi :
    (forwardFilter Real.exp (oneCell Real.log) tinyLik (1 / 4) (1 / 4) (by norm_num)
      (zeroGrids 2 1)).psi ⟨0, by norm_num⟩ = 1e-21 := by
  have hpred := filter_pred_sum (oneCell Real.log) tinyLik (1 / 4) (1 / 4) (zeroGrids 2 1)
    (by norm_num) oneCell_Sns_nonneg oneCell_Sew_nonneg rfl (by simp [oneCell])
    (by norm_num) (by norm_num) tinyLik_pos (by norm_num) 0 (by norm_num)
  have hrow : ∀ j, (tinyLik : Fin 2 → Fin 1 → ℝ) ⟨0 + 1, by norm_num⟩ j = 1e-21 := by
    intro j
    simp [tinyLik]
  rw [forwardFilter_psi _ _ _ _ _ _ (by norm_num) 0 (by norm_num)]
  simp only [hrow, ← Finset.sum_mul, hpred, one_mul]

/-- C10 (as stated, refuted): on a single cell with the strictly positive observation rows
`[1]`, `[1e-21]` and `Dx = Dy = 1/4`, the normaliser is `psi[0] = 1e-21` and the filtered row
`phi[1] = post / (psi[0] + 1e-20)` sums to `1/11`, which is not 1. -/
theorem C10_counterexample :
    (∀ t j, 0 < (tinyLik : Fin 2 → Fin 1 → ℝ) t j) ∧
      ∑ j, (forwardFilter Real.exp (oneCell Real.log) tinyLik (1 / 4) (1 / 4)
        (by norm_num) (zeroGrids 2 1)).phi ⟨1, by norm_num⟩ j = 1 / 11 ∧
      ∑ j, (forwardFilter Real.exp (oneCell Real.log) tinyLik (1 / 4) (1 / 4)
        (by norm_num) (zeroGrids 2 1)).phi ⟨1, by norm_num⟩ j ≠ 1 := by
  have h1 : ∑ j, (forwardFilter Real.exp (oneCell Real.log) tinyLik (1 / 4) (1 / 4)
        (by norm_num) (zeroGrids 2 1)).phi ⟨1, by norm_num⟩ j = 1 / 11 := by
    have hs := filter_phi_sum (oneCell Real.log) tinyLik (1 / 4) (1 / 4) (zeroGrids 2 1)
      (by norm_num) 0 (by norm_num)
    rw [tinyLik_psi] at hs
    rw [hs]
    norm_num
  refine ⟨tinyLik_pos, h1, ?_⟩
  rw [h1]
  norm_num

/-- C10 (amended): for every grid context with nonnegative skeletons, `I` the identity and
`dt > 0`, every `n ≥ 1`, every `datlik` with strictly positive entries and every
`Dx, Dy > 0`, each row `phi[t]` of the forward filter has nonnegative entries; row 0 sums
to exactly 1 and each row `t ≥ 1`, computed as `post / (psi[t-1] + 1e-20)`, sums to
`psi[t-1] / (psi[t-1] + 1e-20)`, which is positive and at most 1. -/
theorem C10_filtered_rows (c : Consts ℝ n) (datlik : Fin nt → Fin n → ℝ) (Dx Dy : ℝ)
    (g : Grids ℝ nt n) (hnt : 0 < nt) (hn : 0 < n)
    (hns : ∀ i j, 0 ≤ c.Sns i j) (hew : ∀ i j, 0 ≤ c.Sew i j) (hI : c.I = 1)
    (hdt : 0 < c.dt) (hx : 0 < Dx) (hy : 0 < Dy) (hd : ∀ t j, 0 < datlik t j)
    (t : Nat) (ht : t < nt) :
    (∀ j, 0 ≤ (forwardFilter Real.exp c datlik Dx Dy hnt g).phi ⟨t, ht⟩ j) ∧
      (t = 0 → ∑ j, (forwardFilter Real.exp c datlik Dx Dy hnt g).phi ⟨t, ht⟩ j = 1) ∧
      ∀ h0 : 0 < t,
        ∑ j, (forwardFilter Real.exp c datlik Dx Dy hnt g).phi ⟨t, ht⟩ j =
            (forwardFilter Real.exp c datlik Dx Dy hnt g).psi ⟨t - 1, by omega⟩ /
              ((forwardFilter Real.exp c datlik Dx Dy hnt g).psi ⟨t - 1, by omega⟩ + 1e-20) ∧
          0 < ∑ j, (forwardFilter Real.exp c datlik Dx Dy hnt g).phi ⟨t, ht⟩ j ∧
          ∑ j, (forwardFilter Real.exp c datlik Dx Dy hnt g).phi ⟨t, ht⟩ j ≤ 1 := by
  refine ⟨fun j => (filter_phi_pos c datlik Dx Dy g hnt hns hew hI hdt.le hx.le hy.le hd
    t ht j).le, ?_, ?_⟩
  · intro h
    subst h
    rw [forwardFilter_phi_zero, ← Finset.sum_div]
    exact div_self (Finset.sum_pos (fun k _ => hd _ k) ⟨⟨0, hn⟩, Finset.mem_univ _⟩).ne.symm
  · intro h0
    obtain ⟨s, rfl⟩ := Nat.exists_eq_succ_of_ne_zero (Nat.pos_iff_ne_zero.mp h0)
    have hpsi := filter_psi_pos c datlik Dx Dy g hnt hns hew hI hdt.le hx.le hy.le hd hn s ht
    have hsum := filter_phi_sum c datlik Dx Dy g hnt s ht
    have hden : 0 < (forwardFilter Real.exp c datlik Dx Dy hnt g).psi ⟨s, by omega⟩ + 1e-20 :=
      add_pos hpsi eps_pos
    refine ⟨hsum, ?_, ?_⟩
    · rw [hsum]
      exact div_pos hpsi hden
    · rw [hsum, div_le_one hden]
      linarith [eps_pos]

/-- Witness of C10 (amended): a single cell with the observation rows `[1]`, `[1e-21]`,
`Dx = Dy = 1/4`, row `t = 1`: the mass of `phi[1]` is `psi[0] / (psi[0] + 1e-20)`, positive and
at most 1. -/
theorem C10_filtered_rows_witness :
    ∑ j, (forwardFilter Real.exp (oneCell Real.log) tinyLik (1 / 4) (1 / 4) (by norm_num)
        (zeroGrids 2 1)).phi ⟨1, by norm_num⟩ j =
        (forwardFilter Real.exp (oneCell Real.log) tinyLik (1 / 4) (1 / 4) (by norm_num)
          (zeroGrids 2 1)).psi ⟨1 - 1, by norm_num⟩ /
          ((forwardFilter Real.exp (oneCell Real.log) tinyLik (1 / 4) (1 / 4) (by norm_num)
            (zeroGrids 2 1)).psi ⟨1 - 1, by norm_num⟩ + 1e-20) ∧
      0 < ∑ j, (forwardFilter Real.exp (oneCell Real.log) tinyLik (1 / 4) (1 / 4) (by norm_num)
        (zeroGrids 2 1)).phi ⟨1, by norm_num⟩ j ∧
      ∑ j, (forwardFilter Real.exp (oneCell Real.log) tinyLik (1 / 4) (1 / 4) (by norm_num)
        (zeroGrids 2 1)).phi ⟨1, by norm_num⟩ j ≤ 1 :=
  (C10_filtered_rows (oneCell Real.log) tinyLik (1 / 4) (1 / 4) (zeroGrids 2 1) (by norm_num)
    (by norm_num) oneCell_Sns_nonneg oneCell_Sew_nonneg rfl (by simp [oneCell])
    (by norm_num) (by norm_num) tinyLik_pos 1 (by norm_num)).2.2 (by norm_num)

/-! ## The 4-cell chain scenario -/

theorem chain4_vecMul (v : Fin 4 → ℝ) :
    Matrix.vecMul v (FPdt (chain4 Real.log) (1 / 2) 0) =
      ![v 0 + v 1 / 2, v 0 / 2 + v 1 + v 2 / 2, v 1 / 2 + v 2 + v 3 / 2, v 2 / 2 + v 3] := by
  funext j
  fin_cases j <;>
    simp [Matrix.vecMul, Matrix.dotProduct, Fin.sum_univ_four, FPdt, P, G, F, chain4, chainSew,
      Matrix.one_apply, Matrix.vecHead, Matrix.vecTail] <;>
    ring

theorem EndsLt.le {v : Fin 4 → ℝ} (h : EndsLt v) : EndsLe v :=
  ⟨h.1, h.2.1, h.2.2.1, h.2.2.2.le⟩

theorem EndsLt.scale {v : Fin 4 → ℝ} (h : EndsLt v) {a : ℝ} (ha : 0 < a) :
    EndsLt (fun j => v j * a) := by
  obtain ⟨h1, h2, h3, h4⟩ := h
  exact ⟨by simp only [h1], by simp only [h2], mul_pos h3 ha, mul_lt_mul_of_pos_right h4 ha⟩

theorem chain4_vecMul_shape {v : Fin 4 → ℝ} (h : EndsLe v) :
    EndsLt (Matrix.vecMul v (FPdt (chain4 Real.log) (1 / 2) 0)) := by
  obtain ⟨h1, h2, h3, h4⟩ := h
  rw [chain4_vecMul]
  refine ⟨?_, ?_, ?_, ?_⟩ <;> simp <;> linarith

theorem EndsLt.div {v : Fin 4 → ℝ} (h : EndsLt v) {a : ℝ} (ha : 0 < a) :
    EndsLt (fun j => v j / a) := by
  obtain ⟨h1, h2, h3, h4⟩ := h
  exact ⟨by simp only [h1], by simp only [h2], div_pos h3 ha, div_lt_div_of_pos_right h4 ha⟩

theorem EndsLe.add_lt {p q : Fin 4 → ℝ} (hp : EndsLe p) (hq : EndsLt q) :
    EndsLt (fun j => p j + q j) := by
  obtain ⟨p1, p2, p3, p4⟩ := hp
  obtain ⟨q1, q2, q3, q4⟩ := hq
  exact ⟨by simp only [p1, q1], by simp only [p2, q2], add_pos p3 q3, add_lt_add_of_le_of_lt p4 q4⟩

theorem chain4_seriesLoop_shape (lgam : List ℝ) {v : Fin 4 → ℝ} (h : EndsLe v) (k : Nat) :
    EndsLe (seriesLoop Real.exp lgam (FPdt (chain4 Real.log) (1 / 2) 0) v k).1 ∧
      EndsLe (seriesLoop Real.exp lgam (FPdt (chain4 Real.log) (1 / 2) 0) v k).2 ∧
      (1 ≤ k → EndsLt (seriesLoop Real.exp lgam (FPdt (chain4 Real.log) (1 / 2) 0) v k).2) := by
  induction k with
  | zero => exact ⟨h, h, fun h0 => absurd h0 (by norm_num)⟩
  | succ k ih =>
    rw [seriesLoop_succ]
    obtain ⟨ih1, ih2, _⟩ := ih
    have hs := chain4_vecMul_shape ih1
    have hlt : EndsLt (fun j =>
        (seriesLoop Real.exp lgam (FPdt (chain4 Real.log) (1 / 2) 0) v k).2 j +
          Matrix.vecMul (seriesLoop Real.exp lgam (FPdt (chain4 Real.log) (1 / 2) 0) v k).1
            (FPdt (chain4 Real.log) (1 / 2) 0) j / Real.exp (lgam.getD k 0)) :=
      ih2.add_lt (hs.div (Real.exp_pos _))
    exact ⟨hs.le, hlt.le, fun _ => hlt⟩

theorem chain4_forwardProject_shape {v : Fin 4 → ℝ} (h : EndsLe v) :
    EndsLt (forwardProject Real.exp (chain4 Real.log) v (1 / 2) 0) := by
  have hacc : EndsLt (forwardAcc Real.exp (chain4 Real.log) v (1 / 2) 0) :=
    ((chain4_seriesLoop_shape (chain4 Real.log).lgam h (chain4 Real.log).m.toNat).2.2
      (by simp [chain4])).scale (Real.exp_pos _)
  have hsum : 0 < ∑ k, forwardAcc Real.exp (chain4 Real.log) v (1 / 2) 0 k := by
    obtain ⟨a1, a2, a3, a4⟩ := hacc
    rw [Fin.sum_univ_four]
    linarith
  exact hacc.div hsum

theorem uniform4_shape : EndsLe (fun j => (onesLik 3 4 : Fin 3 → Fin 4 → ℝ) ⟨0, by norm_num⟩ j /
    ∑ k, (onesLik 3 4 : Fin 3 → Fin 4 → ℝ) ⟨0, by norm_num⟩ k) := by
  simp only [EndsLe, onesLik, Fin.sum_univ_four]
  norm_num

theorem chain4_filter_shape (g : Grids ℝ 3 4) (t : Nat) (ht : t < 3) :
    EndsLe ((forwardFilter Real.exp (chain4 Real.log) (onesLik 3 4) (1 / 2) 0 (by norm_num)
        g).phi ⟨t, ht⟩) ∧
      (1 ≤ t → EndsLt ((forwardFilter Real.exp (chain4 Real.log) (onesLik 3 4) (1 / 2) 0
        (by norm_num) g).phi ⟨t, ht⟩)) := by
  induction t with
  | zero =>
    refine ⟨?_, fun h0 => absurd h0 (by norm_num)⟩
    rw [forwardFilter_phi_zero]
    exact uniform4_shape
  | succ t ih =>
    have hp := chain4_forwardProject_shape (ih (by omega)).1
    rw [← forwardFilter_pred_succ _ _ _ _ _ _ (by norm_num) t ht] at hp
    have hpsi : 0 < (forwardFilter Real.exp (chain4 Real.log) (onesLik 3 4) (1 / 2) 0
        (by norm_num) g).psi ⟨t, by omega⟩ + 1e-20 := by
      rw [filter_psi_ones (chain4 Real.log) (1 / 2) 0 g (by norm_num) (chain4_Sns_nonneg _)
        (chain4_Sew_nonneg _) rfl (by simp [chain4]) (by norm_num) (by norm_num) (by norm_num)
        t ht]
      norm_num
    have hlt : EndsLt ((forwardFilter Real.exp (chain4 Real.log) (onesLik 3 4) (1 / 2) 0
        (by norm_num) g).phi ⟨t + 1, ht⟩) := by
      rw [forwardFilter_phi_succ]
      have := hp.div hpsi
      simpa only [onesLik, mul_one] using this
    exact ⟨hlt.le, fun _ => hlt⟩

/-- C4 (as stated, refuted): in the 4-cell chain scenario the filtered row `phi[1]` is not
the uniform vector `[0.25, 0.25, 0.25, 0.25]`. -/
theorem C4_counterexample :
    (forwardFilter Real.exp (chain4 Real.log) (onesLik 3 4) (1 / 2) 0 (by norm_num)
      (zeroGrids 3 4)).phi ⟨1, by norm_num⟩ ≠ ![0.25, 0.25, 0.25, 0.25] := by
  intro h
  have hlt := (chain4_filter_shape (zeroGrids 3 4) 1 (by norm_num)).2 (le_refl 1)
  rw [h] at hlt
  obtain ⟨_, _, _, h4⟩ := hlt
  simp at h4

/-- C4 (amended): in the 4-cell chain scenario (`Sns = 0`, `Sew` the 0/1 adjacency matrix of
the chain, `I` the identity, `dt = 1`, `m = 20`, `lgam[k] = log(k!)`, `Dx = 0.5`, `Dy = 0`,
`datlik` the all-ones 3x4 matrix) the forward filter yields `phi[0] = [0.25, 0.25, 0.25, 0.25]`,
while for `t = 1` and `t = 2` the row `phi[t]` is positive and symmetric about the middle of
the chain, `phi[t][0] = phi[t][3]` and `phi[t][1] = phi[t][2]`, with strictly less mass on the
end cells than on the interior cells, `phi[t][0] < phi[t][1]`. -/
theorem C4_chain_scenario (g : Grids ℝ 3 4) :
    (forwardFilter Real.exp (chain4 Real.log) (onesLik 3 4) (1 / 2) 0 (by norm_num) g).phi
        ⟨0, by norm_num⟩ = ![0.25, 0.25, 0.25, 0.25] ∧
      (∀ phi1 : Fin 4 → ℝ,
        phi1 = (forwardFilter Real.exp (chain4 Real.log) (onesLik 3 4) (1 / 2) 0 (by norm_num)
          g).phi ⟨1, by norm_num⟩ →
        phi1 0 = phi1 3 ∧ phi1 1 = phi1 2 ∧ 0 < phi1 0 ∧ phi1 0 < phi1 1) ∧
      (∀ phi2 : Fin 4 → ℝ,
        phi2 = (forwardFilter Real.exp (chain4 Real.log) (onesLik 3 4) (1 / 2) 0 (by norm_num)
          g).phi ⟨2, by norm_num⟩ →
        phi2 0 = phi2 3 ∧ phi2 1 = phi2 2 ∧ 0 < phi2 0 ∧ phi2 0 < phi2 1) := by
  refine ⟨?_, fun _ h1 => h1 ▸ (chain4_filter_shape g 1 (by norm_num)).2 (le_refl 1),
    fun _ h2 => h2 ▸ (chain4_filter_shape g 2 (by norm_num)).2 (by norm_num)⟩
  rw [forwardFilter_phi_zero]
  funext j
  fin_cases j <;> simp [onesLik, Fin.sum_univ_four] <;> norm_num

/-! ## The projector as the rates tend to zero -/

/-- For `F ≠ 0` the matrix `FPdt` is `(G + F*I) * dt`. -/
theorem FPdt_eq_of_ne (c : Consts ℝ n) {Dx Dy : ℝ} (hF : F Dx Dy ≠ 0) :
    FPdt c Dx Dy =
      Matrix.of fun i j => (Dx * c.Sew i j + Dy * c.Sns i j + F Dx Dy * c.I i j) * c.dt := by
  ext i j
  simp only [FPdt, P, G, Matrix.of_apply]
  have h : F Dx Dy * ((Dx * c.Sew i j + Dy * c.Sns i j) / F Dx Dy + c.I i j) =
      Dx * c.Sew i j + Dy * c.Sns i j + F Dx Dy * c.I i j := by
    field_simp
    ring
  rw [h]

theorem seriesLoop_continuous (lgam : List ℝ) (v : Fin n → ℝ)
    (Q : ℝ × ℝ → Matrix (Fin n) (Fin n) ℝ) (hQ : ∀ i j, Continuous fun p => Q p i j) (k : Nat) :
    (∀ j, Continuous fun p => (seriesLoop Real.exp lgam (Q p) v k).1 j) ∧
      (∀ j, Continuous fun p => (seriesLoop Real.exp lgam (Q p) v k).2 j) := by
  induction k with
  | zero => exact ⟨fun j => continuous_const, fun j => continuous_const⟩
  | succ k ih =>
    have h1 : ∀ j, Continuous fun p =>
        Matrix.vecMul (seriesLoop Real.exp lgam (Q p) v k).1 (Q p) j := by
      intro j
      simp only [Matrix.vecMul, Matrix.dotProduct]
      exact continuous_finset_sum _ fun i _ => (ih.1 i).mul (hQ i j)
    simp only [seriesLoop_succ]
    exact ⟨h1, fun j => (ih.2 j).add ((h1 j).div_const _)⟩

theorem seriesLoop_zero_matrix (lgam : List ℝ) (v : Fin n → ℝ) (k : Nat) (j : Fin n) :
    (seriesLoop Real.exp lgam (0 : Matrix (Fin n) (Fin n) ℝ) v k).2 j = v j := by
  rw [(seriesLoop_closed _ _ _ _ _).2]
  simp [pow_succ]

/-- The projector tends to the normalised input as the rates tend to zero through
nonzero values of `F`. -/
theorem forwardProject_tendsto (c : Consts ℝ n) (v : Fin n → ℝ) (hs : ∑ j, v j = 1)
    (j : Fin n) :
    Filter.Tendsto (fun p : ℝ × ℝ => forwardProject Real.exp c v p.1 p.2 j)
      (nhdsWithin (0, 0) (Set.Ioi 0 ×ˢ Set.Ioi 0)) (nhds (v j)) := by
  let Q : ℝ × ℝ → Matrix (Fin n) (Fin n) ℝ := fun p =>
    Matrix.of fun i j => (p.1 * c.Sew i j + p.2 * c.Sns i j + F p.1 p.2 * c.I i j) * c.dt
  let H : ℝ × ℝ → Fin n → ℝ := fun p k =>
    (seriesLoop Real.exp c.lgam (Q p) v c.m.toNat).2 k * Real.exp (-F p.1 p.2 * c.dt)
  have hF : Continuous fun p : ℝ × ℝ => F p.1 p.2 := by
    simp only [F]
    fun_prop
  have hQ : ∀ i k, Continuous fun p => Q p i k := by
    intro i k
    simp only [Q, Matrix.of_apply]
    fun_prop
  have hH : ∀ k, Continuous fun p => H p k := by
    intro k
    simp only [H]
    exact ((seriesLoop_continuous c.lgam v Q hQ _).2 k).mul
      (Real.continuous_exp.comp ((hF.neg).mul continuous_const))
  have hQ0 : Q (0, 0) = 0 := by
    ext i k
    simp [Q, F]
  have hH0 : ∀ k, H (0, 0) k = v k := by
    intro k
    simp only [H, hQ0, seriesLoop_zero_matrix]
    simp [F]
  have hsum0 : ∑ k, H (0, 0) k = 1 := by
    simp only [hH0, hs]
  have hcont : ContinuousAt (fun p => H p j / ∑ k, H p k) (0, 0) :=
    (hH j).continuousAt.div (continuous_finset_sum _ fun k _ => hH k).continuousAt
      (by rw [hsum0]; exact one_ne_zero)
  have hlim : Filter.Tendsto (fun p => H p j / ∑ k, H p k)
      (nhdsWithin (0, 0) (Set.Ioi 0 ×ˢ Set.Ioi 0)) (nhds (v j)) := by
    have h := hcont.tendsto
    simp only [hH0, hs, div_one] at h
    exact h.mono_left nhdsWithin_le_nhds
  refine hlim.congr' ?_
  refine eventually_nhdsWithin_of_forall fun p hp => ?_
  obtain ⟨hp1, hp2⟩ := hp
  have hp1 : 0 < p.1 := hp1
  have hp2 : 0 < p.2 := hp2
  have hFne : F p.1 p.2 ≠ 0 := by
    simp only [F]
    positivity
  simp only [forwardProject, forwardAcc, FPdt_eq_of_ne c hFne, H, Q]

/-- C9: for a grid context with `dt > 0`, `m ≥ 0` and any `lgam`, and a probability vector
`v`, every entry of `forwardProject(v, Dx, Dy)` converges to the entry of `v` as `(Dx, Dy)`
tends to `(0, 0)` through positive values. -/
theorem C9_limit_zero_rates (c : Consts ℝ n) (v : Fin n → ℝ) (_hdt : 0 < c.dt) (_hm : 0 ≤ c.m)
    (_hv : ∀ j, 0 ≤ v j) (hs : ∑ j, v j = 1) (j : Fin n) :
    Filter.Tendsto (fun p : ℝ × ℝ => forwardProject Real.exp c v p.1 p.2 j)
      (nhdsWithin (0, 0) (Set.Ioi 0 ×ˢ Set.Ioi 0)) (nhds (v j)) :=
  forwardProject_tendsto c v hs j

/-- Witness of C9: the 4-cell chain with the uniform vector. -/
theorem C9_limit_zero_rates_witness :
    Filter.Tendsto
      (fun p : ℝ × ℝ => forwardProject Real.exp (chain4 Real.log) uniform4 p.1 p.2 0)
      (nhdsWithin (0, 0) (Set.Ioi 0 ×ˢ Set.Ioi 0)) (nhds ((uniform4 : Fin 4 → ℝ) 0)) :=
  C9_limit_zero_rates (chain4 Real.log) uniform4 (by simp [chain4]) (by simp [chain4])
    uniform4_nonneg uniform4_sum 0

/-! ## The atomic wrapper and the smoothing flag -/

/-- C19: converting `(svec, Dx, Dy)` to the length `n+2` vector `[svec, Dx, Dy]` and back
via `shmm_parms` recovers the same `svec`, `Dx` and `Dy` for every `n ≥ 0`; the vector
holds `svec` in its first `n` entries, `Dx` at index `n` and `Dy` at index `n+1`; and the
user-level `ForwardProject(svec, Dx, Dy)` returns exactly the row returned by the direct
`forwardProject(svec, Dx, Dy)`, for every input. -/
theorem C19_wrapper_transparent (ex : K → K) (c : Consts K n) (svec : Fin n → K) (Dx Dy : K) :
    shmm_parms.ofVector (shmm_parms.toVector { svec := svec, Dx := Dx, Dy := Dy }) =
        { svec := svec, Dx := Dx, Dy := Dy } ∧
      (∀ j : Fin n, shmm_parms.toVector { svec := svec, Dx := Dx, Dy := Dy }
        ⟨j.val, by omega⟩ = svec j) ∧
      shmm_parms.toVector { svec := svec, Dx := Dx, Dy := Dy } ⟨n, by omega⟩ = Dx ∧
      shmm_parms.toVector { svec := svec, Dx := Dx, Dy := Dy } ⟨n + 1, by omega⟩ = Dy ∧
      ForwardProject ex c svec Dx Dy = forwardProject ex c svec Dx Dy := by
  refine ⟨shmm_parms.ofVector_toVector _, fun j => ?_, ?_, ?_, ForwardProject_eq ex c svec Dx Dy⟩
  · simp [shmm_parms.toVector, j.isLt]
  · simp [shmm_parms.toVector]
  · simp [shmm_parms.toVector]

/-- C11: the smoothing flag does not influence the filter results: for every value of
`dosmoo` the returned `negLogLik` and the arrays `pred`, `phi`, `psi` are those of the
forward filter, hence identical for `dosmoo = 0` and `dosmoo = 1`; when `dosmoo` is not 1
the smoother does not run and `smoo` keeps its allocated content. -/
theorem C11_smoothing_flag (ex lg : K → K) (c : Consts K n) (datlik : Fin nt → Fin n → K)
    (logDx logDy : K) (g : Grids K nt n) (hnt : 0 < nt) (dosmoo : Int) :
    ((evaluate ex lg c datlik dosmoo logDx logDy hnt g).1 =
        negLogLik lg (forwardFilter ex c datlik (ex logDx) (ex logDy) hnt g).psi ∧
      (evaluate ex lg c datlik dosmoo logDx logDy hnt g).2.pred =
        (forwardFilter ex c datlik (ex logDx) (ex logDy) hnt g).pred ∧
      (evaluate ex lg c datlik dosmoo logDx logDy hnt g).2.phi =
        (forwardFilter ex c datlik (ex logDx) (ex logDy) hnt g).phi ∧
      (evaluate ex lg c datlik dosmoo logDx logDy hnt g).2.psi =
        (forwardFilter ex c datlik (ex logDx) (ex logDy) hnt g).psi) ∧
      ((evaluate ex lg c datlik 0 logDx logDy hnt g).1 =
        (evaluate ex lg c datlik 1 logDx logDy hnt g).1 ∧
      (evaluate ex lg c datlik 0 logDx logDy hnt g).2.pred =
        (evaluate ex lg c datlik 1 logDx logDy hnt g).2.pred ∧
      (evaluate ex lg c datlik 0 logDx logDy hnt g).2.phi =
        (evaluate ex lg c datlik 1 logDx logDy hnt g).2.phi ∧
      (evaluate ex lg c datlik 0 logDx logDy hnt g).2.psi =
        (evaluate ex lg c datlik 1 logDx logDy hnt g).2.psi) ∧
      (dosmoo ≠ 1 → (evaluate ex lg c datlik dosmoo logDx logDy hnt g).2.smoo = g.smoo) := by
  have key : ∀ d : Int,
      (evaluate ex lg c datlik d logDx logDy hnt g).1 =
        negLogLik lg (forwardFilter ex c datlik (ex logDx) (ex logDy) hnt g).psi ∧
      (evaluate ex lg c datlik d logDx logDy hnt g).2.pred =
        (forwardFilter ex c datlik (ex logDx) (ex logDy) hnt g).pred ∧
      (evaluate ex lg c datlik d logDx logDy hnt g).2.phi =
        (forwardFilter ex c datlik (ex logDx) (ex logDy) hnt g).phi ∧
      (evaluate ex lg c datlik d logDx logDy hnt g).2.psi =
        (forwardFilter ex c datlik (ex logDx) (ex logDy) hnt g).psi := by
    intro d
    have h := smoothing_frame ex c (ex logDx) (ex logDy) hnt
      (forwardFilter ex c datlik (ex logDx) (ex logDy) hnt g) d
    exact ⟨rfl, h.1, h.2.1, h.2.2⟩
  refine ⟨key dosmoo, ?_, ?_⟩
  · obtain ⟨a0, b0, c0, d0⟩ := key 0
    obtain ⟨a1, b1, c1, d1⟩ := key 1
    exact ⟨a0.trans a1.symm, b0.trans b1.symm, c0.trans c1.symm, d0.trans d1.symm⟩
  · intro hd
    simp only [evaluate, smoothing, if_neg hd]
    exact forwardFilter_smoo ex c datlik (ex logDx) (ex logDy) g hnt

/-- Witness of C11: the 4-cell chain with three all-ones observation rows. -/
theorem C11_smoothing_flag_witness :
    (evaluate Real.exp Real.log (chain4 Real.log) (onesLik 3 4) 0 0 0 (by norm_num)
        (zeroGrids 3 4)).1 =
      (evaluate Real.exp Real.log (chain4 Real.log) (onesLik 3 4) 1 0 0 (by norm_num)
        (zeroGrids 3 4)).1 :=
  (C11_smoothing_flag Real.exp Real.log (chain4 Real.log) (onesLik 3 4) 0 0 (zeroGrids 3 4)
    (by norm_num) 0).2.1.1

/-! ## Scaling of the projector's input, and projection without movement -/

/-- The series loop is homogeneous in its start vector. -/
theorem seriesLoop_smul (ex : K → K) (lgam : List K) (M : Matrix (Fin n) (Fin n) K)
    (v : Fin n → K) (a : K) (k : Nat) :
    seriesLoop ex lgam M (a • v) k =
      (a • (seriesLoop ex lgam M v k).1, a • (seriesLoop ex lgam M v k).2) := by
  induction k with
  | zero => rfl
  | succ k ih =>
    rw [seriesLoop_succ, seriesLoop_succ, ih]
    simp only [Matrix.vecMul_smul]
    congr 1
    funext j
    simp only [Pi.smul_apply, smul_eq_mul]
    ring

theorem forwardAcc_smul (ex : K → K) (c : Consts K n) (v : Fin n → K) (Dx Dy a : K)
    (j : Fin n) :
    forwardAcc ex c (a • v) Dx Dy j = a * forwardAcc ex c v Dx Dy j := by
  simp only [forwardAcc, seriesLoop_smul, Pi.smul_apply, smul_eq_mul]
  ring

theorem forwardProject_smul (ex : K → K) (c : Consts K n) (v : Fin n → K) (Dx Dy a : K)
    (ha : a ≠ 0) :
    forwardProject ex c (a • v) Dx Dy = forwardProject ex c v Dx Dy := by
  funext j
  simp only [forwardProject, forwardAcc_smul]
  rw [← Finset.mul_sum, mul_div_mul_left _ _ ha]

/-- C17: the projector is scale-invariant in its input: for every grid context, every
`Dx`, `Dy`, every vector `v` whose accumulated series has nonzero sum and every `a ≠ 0`,
`forwardProject(a*v, Dx, Dy) = forwardProject(v, Dx, Dy)`; the output sums to 1 whether or
not `v` is a probability vector; and the scaling by `exp(-F*dt)` has no effect on the
returned vector, which is the unscaled series divided by its sum. -/
theorem C17_scale_invariance (c : Consts ℝ n) (v : Fin n → ℝ) (Dx Dy a : ℝ)
    (hsum : ∑ j, forwardAcc Real.exp c v Dx Dy j ≠ 0) (ha : a ≠ 0) :
    forwardProject Real.exp c (fun j => a * v j) Dx Dy = forwardProject Real.exp c v Dx Dy ∧
      ∑ j, forwardProject Real.exp c v Dx Dy j = 1 ∧
      ∀ j, forwardProject Real.exp c v Dx Dy j =
        (seriesLoop Real.exp c.lgam (FPdt c Dx Dy) v c.m.toNat).2 j /
          ∑ k, (seriesLoop Real.exp c.lgam (FPdt c Dx Dy) v c.m.toNat).2 k := by
  refine ⟨forwardProject_smul Real.exp c v Dx Dy a ha,
    forwardProject_sum_of_ne Real.exp c v Dx Dy hsum, fun j => ?_⟩
  simp only [forwardProject, forwardAcc]
  rw [← Finset.sum_mul, mul_div_mul_right _ _ (Real.exp_pos _).ne.symm]

/-- Witness of C17: the 4-cell chain, the uniform vector scaled by 3. -/
theorem C17_scale_invariance_witness :
    forwardProject Real.exp (chain4 Real.log) (fun j => 3 * (uniform4 : Fin 4 → ℝ) j) (1 / 2) 1 =
      forwardProject Real.exp (chain4 Real.log) uniform4 (1 / 2) 1 :=
  (C17_scale_invariance (chain4 Real.log) uniform4 (1 / 2) 1 3
    (forwardAcc_sum_pos (chain4 Real.log) (chain4_Sns_nonneg _) (chain4_Sew_nonneg _) rfl
      (by simp [chain4]) (by norm_num) (by norm_num) uniform4_nonneg
      (by rw [uniform4_sum]; exact one_pos)).ne.symm
    (by norm_num)).1

/-- Without edges and with `I` the identity, `FPdt` is `F*dt` times the identity. -/
theorem FPdt_noEdges (c : Consts ℝ n) (Dx Dy : ℝ) (hns : c.Sns = 0) (hew : c.Sew = 0)
    (hI : c.I = 1) : FPdt c Dx Dy = (F Dx Dy * c.dt) • (1 : Matrix (Fin n) (Fin n) ℝ) := by
  ext i j
  simp only [FPdt, P, G, hns, hew, hI, Matrix.of_apply, Matrix.zero_apply, Matrix.smul_apply,
    smul_eq_mul, mul_zero, add_zero, zero_div, zero_add]
  ring

theorem vecMul_scalar (w : Fin n → ℝ) (s : ℝ) :
    Matrix.vecMul w (s • (1 : Matrix (Fin n) (Fin n) ℝ)) = s • w := by
  funext j
  simp [Matrix.vecMul, Matrix.dotProduct, Matrix.one_apply, mul_comm]

/-- With a multiple `s * 1` of the identity, `s ≥ 0`, both loop variables stay multiples of
the start vector, the accumulator with a coefficient `≥ 1`. -/
theorem seriesLoop_scalar (lgam : List ℝ) (v : Fin n → ℝ) {s : ℝ} (hs : 0 ≤ s) (k : Nat) :
    ∃ a b : ℝ, 0 ≤ a ∧ 1 ≤ b ∧
      (seriesLoop Real.exp lgam (s • (1 : Matrix (Fin n) (Fin n) ℝ)) v k).1 = a • v ∧
      (seriesLoop Real.exp lgam (s • (1 : Matrix (Fin n) (Fin n) ℝ)) v k).2 = b • v := by
  induction k with
  | zero => exact ⟨1, 1, zero_le_one, le_refl 1, (one_smul _ _).symm, (one_smul _ _).symm⟩
  | succ k ih =>
    obtain ⟨a, b, ha, hb, h1, h2⟩ := ih
    have hstep : Matrix.vecMul
        (seriesLoop Real.exp lgam (s • (1 : Matrix (Fin n) (Fin n) ℝ)) v k).1
        (s • (1 : Matrix (Fin n) (Fin n) ℝ)) = (a * s) • v := by
      rw [h1, Matrix.vecMul_smul, vecMul_scalar, smul_smul]
    refine ⟨a * s, b + a * s / Real.exp (lgam.getD k 0), mul_nonneg ha hs, ?_, ?_, ?_⟩
    · have : 0 ≤ a * s / Real.exp (lgam.getD k 0) :=
        div_nonneg (mul_nonneg ha hs) (Real.exp_pos _).le
      linarith
    · rw [seriesLoop_succ]
      exact hstep
    · rw [seriesLoop_succ]
      funext j
      simp only [hstep, h2, Pi.smul_apply, smul_eq_mul]
      ring

/-- The projector with `m ≤ 0` divides the input by its sum. -/
theorem forwardProject_no_iteration (c : Consts ℝ n) (v : Fin n → ℝ) (Dx Dy : ℝ)
    (hm : c.m ≤ 0) (j : Fin n) :
    forwardProject Real.exp c v Dx Dy j = v j / ∑ k, v k := by
  have h0 : c.m.toNat = 0 := Int.toNat_eq_zero.mpr hm
  simp only [forwardProject, forwardAcc, h0, seriesLoop]
  rw [← Finset.sum_mul, mul_div_mul_right _ _ (Real.exp_pos _).ne.symm]

/-- C18: no movement means identity: on a grid context with `Sns = Sew = 0`, `I` the
identity, `dt > 0`, any `m ≥ 0` and any `lgam`, for `Dx, Dy > 0` and a probability vector
`v`, `forwardProject(v, Dx, Dy) = v`; and for any skeletons and rates, if `m = 0` then
`forwardProject(v, Dx, Dy) = v`. -/
theorem C18_no_movement (c : Consts ℝ n) (v : Fin n → ℝ) (Dx Dy : ℝ)
    (_hv : ∀ j, 0 ≤ v j) (hs : ∑ j, v j = 1) :
    (c.Sns = 0 → c.Sew = 0 → c.I = 1 → 0 < c.dt → 0 ≤ c.m → 0 < Dx → 0 < Dy →
        forwardProject Real.exp c v Dx Dy = v) ∧
      (c.m = 0 → forwardProject Real.exp c v Dx Dy = v) := by
  constructor
  · intro hns hew hI hdt _ hx hy
    have hF : 0 ≤ F Dx Dy * c.dt := mul_nonneg (F_pos hx.le hy.le) hdt.le
    obtain ⟨a, b, _, hb, _, h2⟩ := seriesLoop_scalar c.lgam v hF c.m.toNat
    have hbpos : 0 < b := lt_of_lt_of_le one_pos hb
    funext j
    simp only [forwardProject, forwardAcc, FPdt_noEdges c Dx Dy hns hew hI, h2, Pi.smul_apply,
      smul_eq_mul]
    rw [← Finset.sum_mul, ← Finset.mul_sum, hs, mul_one,
      mul_div_mul_right _ _ (Real.exp_pos _).ne.symm, mul_div_cancel_left₀ _ hbpos.ne.symm]
  · intro hm
    funext j
    rw [forwardProject_no_iteration c v Dx Dy hm.le j, hs, div_one]

/-- Witness of C18: a single cell without neighbours and the vector `[1]`. -/
theorem C18_no_movement_witness :
    forwardProject Real.exp (oneCell Real.log) ![1] (1 / 4) (1 / 4) = ![1] :=
  (C18_no_movement (oneCell Real.log) ![1] (1 / 4) (1 / 4) (fun j => by simp) (by simp)).1
    rfl rfl rfl (by simp [oneCell]) (by simp [oneCell]) (by norm_num) (by norm_num)

/-! ## Contexts outside the preconditions, and the embedded matrix `P` -/

/-- C12 (as stated, refuted): with `m = 0` and `dt = -1` the evaluation of two all-ones
observation rows on a single cell is not rejected: it returns the value 0. -/
theorem C12_counterexample :
    (oneCellInvalid : Consts ℝ 1).m ≤ 0 ∧ (oneCellInvalid : Consts ℝ 1).dt ≤ 0 ∧
      ∃ r, objective_function Real.exp Real.log (oneCellInvalid : Consts ℝ 1) (onesLik 2 1)
        0 0 0 (zeroGrids 2 1) = some r ∧ r.1 = 0 := by
  refine ⟨by simp [oneCellInvalid], by simp [oneCellInvalid], _, dif_pos (by norm_num), ?_⟩
  simp only [evaluate]
  refine negLogLik_ones _ fun i => ?_
  have hi : i = ⟨0, by norm_num⟩ := Fin.ext (by omega)
  subst hi
  rw [forwardFilter_psi _ _ _ _ _ _ (by norm_num) 0 (by norm_num), forwardFilter_pred_succ,
    forwardFilter_phi_zero]
  simp [forwardProject_no_iteration _ _ _ _ (show (oneCellInvalid : Consts ℝ 1).m ≤ 0 by
    simp [oneCellInvalid]), onesLik]

/-- C12 (amended): the code does not validate `m` or `dt`: an evaluation whose context has
`m ≤ 0` or `dt ≤ 0` is not rejected, for `nt ≥ 1` it returns a value; with `m ≤ 0` the series
loop runs no iteration and the projector returns `svec / sum(svec)`. -/
theorem C12_no_validation (c : Consts ℝ n) (datlik : Fin nt → Fin n → ℝ) (dosmoo : Int)
    (logDx logDy : ℝ) (g : Grids ℝ nt n) (hnt : 0 < nt) (_hbad : c.m ≤ 0 ∨ c.dt ≤ 0) :
    objective_function Real.exp Real.log c datlik dosmoo logDx logDy g =
        some (evaluate Real.exp Real.log c datlik dosmoo logDx logDy hnt g) ∧
      (c.m ≤ 0 → ∀ (svec : Fin n → ℝ) (Dx Dy : ℝ) (j : Fin n),
        forwardProject Real.exp c svec Dx Dy j = svec j / ∑ k, svec k) :=
  ⟨dif_pos hnt, fun hm svec Dx Dy j => forwardProject_no_iteration c svec Dx Dy hm j⟩

/-- Witness of C12 (amended): the single cell with `m = 0`, `dt = -1`, two observation rows. -/
theorem C12_no_validation_witness :
    objective_function Real.exp Real.log (oneCellInvalid : Consts ℝ 1) (onesLik 2 1) 0 0 0
        (zeroGrids 2 1) =
      some (evaluate Real.exp Real.log (oneCellInvalid : Consts ℝ 1) (onesLik 2 1) 0 0 0
        (by norm_num) (zeroGrids 2 1)) :=
  (C12_no_validation (oneCellInvalid : Consts ℝ 1) (onesLik 2 1) 0 0 0 (zeroGrids 2 1)
    (by norm_num) (Or.inl (by simp [oneCellInvalid]))).1

theorem P_row_sum (c : Consts ℝ n) (Dx Dy : ℝ) (hI : c.I = 1) (i : Fin n) :
    ∑ j, P c Dx Dy i j = 1 + (Dx * ∑ j, c.Sew i j + Dy * ∑ j, c.Sns i j) / F Dx Dy := by
  simp only [P, G, Matrix.of_apply, hI, Finset.sum_add_distrib, ← Finset.sum_div,
    ← Finset.mul_sum, Matrix.one_apply, Finset.sum_ite_eq, Finset.mem_univ, if_true]
  ring

/-- C13 (as stated, refuted): on the 4-cell chain with `Dx = Dy = 1/2`, row 1 of
`P = G/F + I` sums to `3/2`, which is more than 1. -/
theorem C13_counterexample :
    ∑ j, P (chain4 Real.log) (1 / 2) (1 / 2) 1 j = 3 / 2 ∧
      ¬ (∑ j, P (chain4 Real.log) (1 / 2) (1 / 2) 1 j ≤ 1) := by
  have h : ∑ j, P (chain4 Real.log) (1 / 2) (1 / 2) 1 j = 3 / 2 := by
    rw [P_row_sum _ _ _ rfl]
    simp [chain4, chainSew, F, Fin.sum_univ_four]
    norm_num
  refine ⟨h, ?_⟩
  rw [h]
  norm_num

/-- C13 (amended): for a grid context whose skeletons are 0/1 adjacency matrices with zero
diagonal in which each cell has at most two north-south and at most two east-west
neighbours, `I` the identity and `Dx, Dy > 0`, the matrix `P = (Dx*Sew + Dy*Sns)/F + I` with
`F = 2*(Dx+Dy)` has only nonnegative entries, and row `i` of `P` sums to
`1 + (Dx*degEW(i) + Dy*degNS(i))/F`, which is at least 1 and at most 2. -/
theorem C13_embedded_matrix (c : Consts ℝ n) (Dx Dy : ℝ)
    (hns : ∀ i j, c.Sns i j = 0 ∨ c.Sns i j = 1) (hew : ∀ i j, c.Sew i j = 0 ∨ c.Sew i j = 1)
    (_hnsd : ∀ i, c.Sns i i = 0) (_hewd : ∀ i, c.Sew i i = 0)
    (hnsdeg : ∀ i, ∑ j, c.Sns i j ≤ 2) (hewdeg : ∀ i, ∑ j, c.Sew i j ≤ 2)
    (hI : c.I = 1) (hx : 0 < Dx) (hy : 0 < Dy) :
    (∀ i j, 0 ≤ P c Dx Dy i j) ∧
      ∀ i, ∑ j, P c Dx Dy i j =
          1 + (Dx * ∑ j, c.Sew i j + Dy * ∑ j, c.Sns i j) / F Dx Dy ∧
        1 ≤ ∑ j, P c Dx Dy i j ∧ ∑ j, P c Dx Dy i j ≤ 2 := by
  have hns0 : ∀ i j, 0 ≤ c.Sns i j := fun i j => by
    rcases hns i j with h | h <;> simp [h]
  have hew0 : ∀ i j, 0 ≤ c.Sew i j := fun i j => by
    rcases hew i j with h | h <;> simp [h]
  have hF : 0 < F Dx Dy := by
    unfold F
    positivity
  constructor
  · intro i j
    have hone : 0 ≤ c.I i j := by
      rw [hI, Matrix.one_apply]
      split <;> norm_num
    simp only [P, G, Matrix.of_apply]
    exact add_nonneg (div_nonneg (add_nonneg (mul_nonneg hx.le (hew0 i j))
      (mul_nonneg hy.le (hns0 i j))) hF.le) hone
  · intro i
    have hsum := P_row_sum c Dx Dy hI i
    have h1 : 0 ≤ ∑ j, c.Sew i j := Finset.sum_nonneg fun j _ => hew0 i j
    have h2 : 0 ≤ ∑ j, c.Sns i j := Finset.sum_nonneg fun j _ => hns0 i j
    have hnum0 : 0 ≤ Dx * ∑ j, c.Sew i j + Dy * ∑ j, c.Sns i j :=
      add_nonneg (mul_nonneg hx.le h1) (mul_nonneg hy.le h2)
    have hnum1 : Dx * ∑ j, c.Sew i j + Dy * ∑ j, c.Sns i j ≤ F Dx Dy := by
      have a1 := mul_le_mul_of_nonneg_left (hewdeg i) hx.le
      have a2 := mul_le_mul_of_nonneg_left (hnsdeg i) hy.le
      unfold F
      linarith
    refine ⟨hsum, ?_, ?_⟩
    · rw [hsum]
      linarith [div_nonneg hnum0 hF.le]
    · rw [hsum]
      have := (div_le_one hF).mpr hnum1
      linarith

/-- Witness of C13 (amended): the 4-cell chain with `Dx = Dy = 1/2`, row 1. -/
theorem C13_embedded_matrix_witness :
    1 ≤ ∑ j, P (chain4 Real.log) (1 / 2) (1 / 2) 1 j :=
  ((C13_embedded_matrix (chain4 Real.log) (1 / 2) (1 / 2)
    (fun i j => by simp [chain4]) (fun i j => by
      fin_cases i <;> fin_cases j <;> simp [chain4, chainSew, Matrix.vecHead, Matrix.vecTail])
    (fun i => by simp [chain4]) (fun i => by
      fin_cases i <;> simp [chain4, chainSew, Matrix.vecHead, Matrix.vecTail])
    (fun i => by simp [chain4]) (fun i => by
      fin_cases i <;> simp [chain4, chainSew, Fin.sum_univ_four, Matrix.vecHead, Matrix.vecTail]
        <;> norm_num)
    rfl (by norm_num) (by norm_num)).2 1).2.1

/-! ## The backward smoother: characteristic equations -/

section SmootherEquations

variable (ex : K → K) (c : Consts K n) (Dx Dy : K) (hnt : 0 < nt) (g : Grids K nt n)

theorem smoothStep_smoo (t : Nat) (h1 : 1 ≤ t) (ht : t < nt) (r : Fin nt) :
    (smoothStep ex c Dx Dy t h1 ht g).smoo r =
      if r = ⟨nt - t - 1, by omega⟩ then
        fun j => g.phi ⟨nt - t - 1, by omega⟩ j *
            forwardProject ex c
              (fun i => g.smoo ⟨nt - t, by omega⟩ i / g.pred ⟨nt - t, by omega⟩ i) Dx Dy j /
          ((∑ k, g.phi ⟨nt - t - 1, by omega⟩ k *
            forwardProject ex c
              (fun i => g.smoo ⟨nt - t, by omega⟩ i / g.pred ⟨nt - t, by omega⟩ i) Dx Dy k) +
            1e-20)
      else g.smoo r := by
  simp only [smoothStep, Function.update_apply, ForwardProject_eq]

theorem smoothLoop_succ (k : Nat) (hk : k + 1 < nt) :
    smoothLoop ex c Dx Dy hnt g (k + 1) hk =
      smoothStep ex c Dx Dy (k + 1) (by omega) hk
        (smoothLoop ex c Dx Dy hnt g k (by omega)) := rfl

/-- Rows `r ≥ nt - 1 - k` of `smoo` are final after `k` iterations of the smoothing loop. -/
theorem smoothLoop_rows_stable (k : Nat) (hk : k < nt) (d : Nat) (hd : k + d < nt)
    (r : Nat) (hr : r < nt) (hrk : nt - 1 - k ≤ r) :
    (smoothLoop ex c Dx Dy hnt g (k + d) hd).smoo ⟨r, hr⟩ =
      (smoothLoop ex c Dx Dy hnt g k hk).smoo ⟨r, hr⟩ := by
  induction d with
  | zero => rfl
  | succ d ih =>
    have hd2 : k + d < nt := by omega
    have hne : (⟨r, hr⟩ : Fin nt) ≠ ⟨nt - (k + d + 1) - 1, by omega⟩ := by
      intro h
      have := Fin.mk.inj h
      omega
    have e : smoothLoop ex c Dx Dy hnt g (k + (d + 1)) hd =
        smoothStep ex c Dx Dy (k + d + 1) (by omega) hd
          (smoothLoop ex c Dx Dy hnt g (k + d) hd2) := rfl
    rw [e, smoothStep_smoo, if_neg hne]
    exact ih hd2

theorem smoothLoop_rows_final (k k2 : Nat) (hk : k < nt) (hk2 : k2 < nt) (hkk : k ≤ k2)
    (r : Nat) (hr : r < nt) (hrk : nt - 1 - k ≤ r) :
    (smoothLoop ex c Dx Dy hnt g k2 hk2).smoo ⟨r, hr⟩ =
      (smoothLoop ex c Dx Dy hnt g k hk).smoo ⟨r, hr⟩ := by
  obtain ⟨d, rfl⟩ := Nat.exists_eq_add_of_le hkk
  exact smoothLoop_rows_stable ex c Dx Dy hnt g k hk d hk2 r hr hrk

/-- The row written by iteration `k + 1` of the smoothing loop, `s = nt - (k+1) - 1`. -/
theorem smoothLoop_row (k : Nat) (hk : k + 1 < nt) (s : Nat) (hs : s + k + 2 = nt) :
    (smoothLoop ex c Dx Dy hnt g (k + 1) hk).smoo ⟨s, by omega⟩ =
      fun j => g.phi ⟨s, by omega⟩ j *
          forwardProject ex c
            (fun i => (smoothLoop ex c Dx Dy hnt g k (by omega)).smoo ⟨s + 1, by omega⟩ i /
              g.pred ⟨s + 1, by omega⟩ i) Dx Dy j /
        ((∑ q, g.phi ⟨s, by omega⟩ q *
          forwardProject ex c
            (fun i => (smoothLoop ex c Dx Dy hnt g k (by omega)).smoo ⟨s + 1, by omega⟩ i /
              g.pred ⟨s + 1, by omega⟩ i) Dx Dy q) + 1e-20) := by
  have e1 : (⟨s, by omega⟩ : Fin nt) = ⟨nt - (k + 1) - 1, by omega⟩ := Fin.ext (by simp; omega)
  have e2 : (⟨s + 1, by omega⟩ : Fin nt) = ⟨nt - (k + 1), by omega⟩ := Fin.ext (by simp; omega)
  have hf := smoothLoop_frame ex c Dx Dy hnt g k (by omega)
  rw [smoothLoop_succ, smoothStep_smoo, if_pos e1, hf.1, hf.2.1, ← e1, ← e2]

/-- The smoothing recursion on the final arrays: row `s` is computed from row `s + 1`. -/
theorem smoothLoop_recursion (s : Nat) (hs : s + 1 < nt) :
    (smoothLoop ex c Dx Dy hnt g (nt - 1) (by omega)).smoo ⟨s, by omega⟩ =
      fun j => g.phi ⟨s, by omega⟩ j *
          forwardProject ex c
            (fun i => (smoothLoop ex c Dx Dy hnt g (nt - 1) (by omega)).smoo ⟨s + 1, hs⟩ i /
              g.pred ⟨s + 1, hs⟩ i) Dx Dy j /
        ((∑ q, g.phi ⟨s, by omega⟩ q *
          forwardProject ex c
            (fun i => (smoothLoop ex c Dx Dy hnt g (nt - 1) (by omega)).smoo ⟨s + 1, hs⟩ i /
              g.pred ⟨s + 1, hs⟩ i) Dx Dy q) + 1e-20) := by
  have hk : nt - 2 - s + 1 < nt := by omega
  rw [smoothLoop_rows_final ex c Dx Dy hnt g (nt - 2 - s + 1) (nt - 1) hk (by omega) (by omega)
      s (by omega) (by omega),
    smoothLoop_rows_final ex c Dx Dy hnt g (nt - 2 - s) (nt - 1) (by omega) (by omega) (by omega)
      (s + 1) hs (by omega),
    smoothLoop_row ex c Dx Dy hnt g (nt - 2 - s) hk s (by omega)]

end SmootherEquations

/-! ## Divisors of the filter -/

theorem forwardAcc_zero (ex : K → K) (c : Consts K n) (v : Fin n → K) (Dx Dy : K)
    (hv : ∀ j, v j = 0) (j : Fin n) : forwardAcc ex c v Dx Dy j = 0 := by
  have h : v = (0 : K) • v := by
    funext i
    simp [hv i]
  rw [h, forwardAcc_smul, zero_mul]

/-- C14 (the code at the failing input): on a single cell with the observation rows
`[1]`, `[0]`, `[1]` (nonnegative, first row of positive sum) and `Dx = Dy = 1/4`, the filter
gets `psi[0] = 0` and `phi[1] = 0`, and the renormalisation divisor `sum(acc)` of the
projection of `phi[1]`, which computes `pred[2]`, is zero. -/
theorem C14_zero_divisor :
    (∀ t j, 0 ≤ (zeroRowLik : Fin 3 → Fin 1 → ℝ) t j) ∧
      0 < ∑ j, (zeroRowLik : Fin 3 → Fin 1 → ℝ) ⟨0, by norm_num⟩ j ∧
      (forwardFilter Real.exp (oneCell Real.log) zeroRowLik (1 / 4) (1 / 4) (by norm_num)
        (zeroGrids 3 1)).psi ⟨0, by norm_num⟩ = 0 ∧
      (∀ j, (forwardFilter Real.exp (oneCell Real.log) zeroRowLik (1 / 4) (1 / 4) (by norm_num)
        (zeroGrids 3 1)).phi ⟨1, by norm_num⟩ j = 0) ∧
      ∑ j, forwardAcc Real.exp (oneCell Real.log)
        ((forwardFilter Real.exp (oneCell Real.log) zeroRowLik (1 / 4) (1 / 4) (by norm_num)
          (zeroGrids 3 1)).phi ⟨1, by norm_num⟩) (1 / 4) (1 / 4) j = 0 ∧
      (forwardFilter Real.exp (oneCell Real.log) zeroRowLik (1 / 4) (1 / 4) (by norm_num)
          (zeroGrids 3 1)).pred ⟨2, by norm_num⟩ =
        fun j => forwardAcc Real.exp (oneCell Real.log)
            ((forwardFilter Real.exp (oneCell Real.log) zeroRowLik (1 / 4) (1 / 4) (by norm_num)
              (zeroGrids 3 1)).phi ⟨1, by norm_num⟩) (1 / 4) (1 / 4) j /
          ∑ k, forwardAcc Real.exp (oneCell Real.log)
            ((forwardFilter Real.exp (oneCell Real.log) zeroRowLik (1 / 4) (1 / 4) (by norm_num)
              (zeroGrids 3 1)).phi ⟨1, by norm_num⟩) (1 / 4) (1 / 4) k := by
  have hphi : ∀ j, (forwardFilter Real.exp (oneCell Real.log) zeroRowLik (1 / 4) (1 / 4)
      (by norm_num) (zeroGrids 3 1)).phi ⟨1, by norm_num⟩ j = 0 := by
    intro j
    rw [forwardFilter_phi_succ _ _ _ _ _ _ (by norm_num) 0 (by norm_num)]
    simp [zeroRowLik]
  refine ⟨fun t j => ?_, ?_, ?_, hphi, ?_, ?_⟩
  · simp only [zeroRowLik]
    split <;> norm_num
  · simp [zeroRowLik]
  · rw [forwardFilter_psi _ _ _ _ _ _ (by norm_num) 0 (by norm_num)]
    simp [zeroRowLik]
  · exact Finset.sum_eq_zero fun j _ => forwardAcc_zero _ _ _ _ _ hphi j
  · rw [forwardFilter_pred_succ _ _ _ _ _ _ (by norm_num) 1 (by norm_num)]
    rfl

/-- The loop of line 159 runs `t = 1 .. nt-1` with `tt = nt - t`: the rows `tt` it visits
are `nt-1, nt-2, .., 1`, each once, in descending order. -/
theorem smoothing_visit_order (nt : Nat) :
    (List.range' 1 (nt - 1)).map (fun t => nt - t) = (List.range' 1 (nt - 1)).reverse := by
  apply List.ext_getElem
  · simp
  · intro i h1 h2
    simp only [List.length_map, List.length_range'] at h1
    simp only [List.getElem_map, List.getElem_range', List.getElem_reverse, List.length_range']
    omega

section Populated

variable (ex : K → K) (c : Consts K n) (datlik : Fin nt → Fin n → K) (Dx Dy : K)
  (hnt : 0 < nt) (g g2 : Grids K nt n)

/-- The filter writes every row of `phi`: the result does not depend on the allocated
content. -/
theorem forwardFilter_phi_populated (t : Nat) (ht : t < nt) :
    (forwardFilter ex c datlik Dx Dy hnt g).phi ⟨t, ht⟩ =
      (forwardFilter ex c datlik Dx Dy hnt g2).phi ⟨t, ht⟩ := by
  induction t with
  | zero => rw [forwardFilter_phi_zero, forwardFilter_phi_zero]
  | succ t ih =>
    rw [forwardFilter_phi_succ, forwardFilter_phi_succ, forwardFilter_psi, forwardFilter_psi,
      forwardFilter_pred_succ, forwardFilter_pred_succ, ih (by omega)]

/-- The filter writes every row of `pred`. -/
theorem forwardFilter_pred_populated (t : Nat) (ht : t < nt) :
    (forwardFilter ex c datlik Dx Dy hnt g).pred ⟨t, ht⟩ =
      (forwardFilter ex c datlik Dx Dy hnt g2).pred ⟨t, ht⟩ := by
  cases t with
  | zero => rw [forwardFilter_pred_zero, forwardFilter_pred_zero]
  | succ t =>
    rw [forwardFilter_pred_succ, forwardFilter_pred_succ,
      forwardFilter_phi_populated ex c datlik Dx Dy hnt g g2 t (by omega)]

/-- The smoothing loop writes every row of `smoo`: two runs on arrays with the same `pred`
and `phi` give the same `smoo`, whatever the allocated content of `smoo`. -/
theorem smoothLoop_populated (hpred : g.pred = g2.pred) (hphi : g.phi = g2.phi)
    (d s : Nat) (hs : s + d + 1 = nt) :
    (smoothLoop ex c Dx Dy hnt g (nt - 1) (by omega)).smoo ⟨s, by omega⟩ =
      (smoothLoop ex c Dx Dy hnt g2 (nt - 1) (by omega)).smoo ⟨s, by omega⟩ := by
  induction d generalizing s with
  | zero =>
    have e : (⟨s, by omega⟩ : Fin nt) = ⟨nt - 1, by omega⟩ := Fin.ext (by simp; omega)
    rw [e, smoothLoop_last, smoothLoop_last, hphi]
  | succ d ih =>
    rw [smoothLoop_recursion ex c Dx Dy hnt g s (by omega),
      smoothLoop_recursion ex c Dx Dy hnt g2 s (by omega), ih (s + 1) (by omega), hpred, hphi]

end Populated

/-- C16: when `dosmoo = 1` and `nt ≥ 1`, the smoothing loop (`t = 1..nt-1`, `tt = nt - t`)
visits `tt = nt-1` down to 1 once each in descending order; the last row is
`smoo[nt-1] = phi[nt-1]`; for every `s` in `0..nt-2`,
`smoo[s] = post / (sum(post) + 1e-20)` with
`post = phi[s] * forwardProject(smoo[s+1] / pred[s+1], Dx, Dy)` elementwise, with the
projector and the rates `Dx = exp(logDx)`, `Dy = exp(logDy)` of the filter; and every row of
`smoo` is populated: the returned `smoo` does not depend on the allocated content. -/
theorem C16_backward_recursion (ex lg : K → K) (c : Consts K n) (datlik : Fin nt → Fin n → K)
    (logDx logDy : K) (g : Grids K nt n) (hnt : 0 < nt) :
    (List.range' 1 (nt - 1)).map (fun t => nt - t) = (List.range' 1 (nt - 1)).reverse ∧
      (evaluate ex lg c datlik 1 logDx logDy hnt g).2.smoo ⟨nt - 1, by omega⟩ =
        (evaluate ex lg c datlik 1 logDx logDy hnt g).2.phi ⟨nt - 1, by omega⟩ ∧
      (∀ (s : Nat) (hs : s + 1 < nt),
        (evaluate ex lg c datlik 1 logDx logDy hnt g).2.smoo ⟨s, by omega⟩ =
          fun j =>
            (evaluate ex lg c datlik 1 logDx logDy hnt g).2.phi ⟨s, by omega⟩ j *
              forwardProject ex c
                (fun i => (evaluate ex lg c datlik 1 logDx logDy hnt g).2.smoo ⟨s + 1, hs⟩ i /
                  (evaluate ex lg c datlik 1 logDx logDy hnt g).2.pred ⟨s + 1, hs⟩ i)
                (ex logDx) (ex logDy) j /
            ((∑ q, (evaluate ex lg c datlik 1 logDx logDy hnt g).2.phi ⟨s, by omega⟩ q *
              forwardProject ex c
                (fun i => (evaluate ex lg c datlik 1 logDx logDy hnt g).2.smoo ⟨s + 1, hs⟩ i /
                  (evaluate ex lg c datlik 1 logDx logDy hnt g).2.pred ⟨s + 1, hs⟩ i)
                (ex logDx) (ex logDy) q) + 1e-20)) ∧
      (∀ (svec : Fin n → K) (Dx Dy : K),
        ForwardProject ex c svec Dx Dy = forwardProject ex c svec Dx Dy) ∧
      ∀ g2 : Grids K nt n,
        (evaluate ex lg c datlik 1 logDx logDy hnt g2).2.smoo =
          (evaluate ex lg c datlik 1 logDx logDy hnt g).2.smoo := by
  have hev : ∀ g' : Grids K nt n, (evaluate ex lg c datlik 1 logDx logDy hnt g').2 =
      smoothLoop ex c (ex logDx) (ex logDy) hnt
        (forwardFilter ex c datlik (ex logDx) (ex logDy) hnt g') (nt - 1) (by omega) := by
    intro g'
    simp only [evaluate, smoothing, if_true]
  have hf := smoothLoop_frame ex c (ex logDx) (ex logDy) hnt
    (forwardFilter ex c datlik (ex logDx) (ex logDy) hnt g) (nt - 1) (by omega)
  refine ⟨smoothing_visit_order nt, ?_, ?_, ForwardProject_eq ex c, ?_⟩
  · rw [hev, smoothLoop_last, hf.2.1]
  · intro s hs
    rw [hev, hf.1, hf.2.1]
    exact smoothLoop_recursion ex c (ex logDx) (ex logDy) hnt _ s hs
  · intro g2
    rw [hev, hev]
    funext r
    have hpred : (forwardFilter ex c datlik (ex logDx) (ex logDy) hnt g2).pred =
        (forwardFilter ex c datlik (ex logDx) (ex logDy) hnt g).pred :=
      funext fun t => forwardFilter_pred_populated ex c datlik _ _ hnt g2 g t.val t.isLt
    have hphi : (forwardFilter ex c datlik (ex logDx) (ex logDy) hnt g2).phi =
        (forwardFilter ex c datlik (ex logDx) (ex logDy) hnt g).phi :=
      funext fun t => forwardFilter_phi_populated ex c datlik _ _ hnt g2 g t.val t.isLt
    exact smoothLoop_populated ex c (ex logDx) (ex logDy) hnt _ _ hpred hphi
      (nt - 1 - r.val) r.val (by have := r.isLt; omega)

/-- Witness of C16: the 4-cell chain with three all-ones observation rows; the returned
`smoo` is the same for zero-filled and for one-filled allocated arrays. -/
theorem C16_backward_recursion_witness :
    (evaluate Real.exp Real.log (chain4 Real.log) (onesLik 3 4) 1 0 0 (by norm_num)
        { pred := onesLik 3 4, phi := onesLik 3 4, psi := fun _ => 1,
          smoo := onesLik 3 4 }).2.smoo =
      (evaluate Real.exp Real.log (chain4 Real.log) (onesLik 3 4) 1 0 0 (by norm_num)
        (zeroGrids 3 4)).2.smoo :=
  (C16_backward_recursion Real.exp Real.log (chain4 Real.log) (onesLik 3 4) 0 0 (zeroGrids 3 4)
    (by norm_num)).2.2.2.2 _

end shmm
